import Mathlib

/-
  Verification development for the sudocubus repository
  (src/sudoku/cell.py, msquare.py, eulero.py, sudoku.py).

  The Python code is shallowly embedded as pure Lean functions:
  - a cell value (NCell._val / Cell._val) is either a fixed number or the
    list of remaining candidates; Python stores candidates in a `set` of
    small ints, which CPython iterates in ascending order for the values
    1..N used here, so candidate sets are modelled as ascending lists and
    every operation preserves that order;
  - mutation is explicit state passing; a raised exception is modelled as
    `Option Err` paired with the state at the moment of the raise (Python
    leaves the mutated object behind when an exception propagates);
  - the recursive backtracking solver is given explicit fuel; running out
    of fuel returns the distinguished non-Unsolvable error `Err.fuel`, so
    every `.ok` result corresponds to a real terminating Python run;
  - console rendering (`self.print()` inside `BasePuzzle.solve_r`) and
    logging are I/O and are modelled as no-ops;
  - `hasattr(self.parent, 'cellnotval')` inside `NCell.setval`/`NCell.xclude`
    is statically `False` in this repository: a cell's parent is always a
    `Magicsquare`, and neither `Magicsquare` nor any instance ever carries a
    `cellnotval` attribute (only `cellgotval` is forwarded to an enclosing
    `Eulero`).  The embedding therefore omits those dead branches, and
    separately embeds `Eulero.cellnotval` itself for comparison.
-/

deriving instance DecidableEq for Except

namespace Sudocubus

/-- Value of a single cell: either fixed, or the ascending list of remaining
candidates (NCell._val in cell.py: an int or a set). -/
inductive CVal where
  | fix : Nat → CVal
  | cand : List Nat → CVal
deriving DecidableEq, Repr

/-- Modelled from the spec: the repository's `exceptions.py` (providing the
single `Unsolvable` exception class used by cell.py/msquare.py/eulero.py) is
not present under src/; the distinct raise sites are told apart here by the
error taxonomy of spec section 7.  `crash` stands for any non-Unsolvable
Python exception (StopIteration, AttributeError, IndexError), which
`except Unsolvable` handlers do not catch; `fuel` is the embedding's
fuel-exhaustion marker and is likewise treated as non-Unsolvable. -/
inductive Err where
  | alreadyFixed
  | valueUnavailable
  | emptyDomain
  | noHouseLocation
  | pairConflict
  | pairLocExhausted
  | noPairLocation
  | triedAll
  | crash
  | fuel
deriving DecidableEq, Repr

/-- Which errors are instances of the Python `Unsolvable` exception
(caught by the `except Unsolvable` handlers in `BasePuzzle.solve_r`). -/
def Err.isUnsolvable : Err → Bool
  | .crash => false
  | .fuel => false
  | _ => true

/-- Cell lookup in a linear row-major cell list (out of range never occurs
on reachable states; the default is a dummy). -/
def cellAt0 (cells : List CVal) (i : Nat) : CVal :=
  cells.getD i (.cand [])

/-- Test whether a cell value is fixed (NCell.is_fix). -/
def isFixB : CVal → Bool
  | .fix _ => true
  | .cand _ => false

/-- Number of candidates of a cell (`len(cell.val)` for an unsolved cell). -/
def cvLen : CVal → Nat
  | .fix _ => 0
  | .cand l => l.length

/-- Number of non-fixed cells in a cell list. -/
def countNonFix (cells : List CVal) : Nat :=
  cells.countP (fun c => ! isFixB c)

/-- Indices of row r of an N x N grid, in scan order (Magicsquare.rows). -/
def rowIdxs (N r : Nat) : List Nat :=
  (List.range N).map (fun j => r * N + j)

/-- Indices of column c of an N x N grid, in scan order (Magicsquare.cols). -/
def colIdxs (N c : Nat) : List Nat :=
  (List.range N).map (fun i => c + i * N)

/-- The peers of cell i that `Magicsquare.cellgotval` excludes a value from:
its row, then its column, skipping the cell itself. -/
def peers (N i : Nat) : List Nat :=
  (rowIdxs N (i / N)).filter (fun j => j ≠ i) ++
    (colIdxs N (i % N)).filter (fun j => j ≠ i)

/-- All houses of a Magicsquare in rule scan order: rows, then columns
(Magicsquare.houses = [rows, cols]). -/
def allHouses (N : Nat) : List (List Nat) :=
  (List.range N).map (rowIdxs N) ++ (List.range N).map (colIdxs N)

/-- Effect of removing candidate v from a cell value (no-op on fixed cells,
`set.discard` otherwise). -/
def xclVal (v : Nat) : CVal → CVal
  | .fix w => .fix w
  | .cand l => .cand (l.erase v)

/-- State of a Magicsquare (msquare.py): size, row-major cells, the cached
count of unsolved cells, and the backtracking stack (top at the head; each
entry is the (remain, cells snapshot) tuple pushed by BasePuzzle.backup). -/
structure MS where
  N : Nat
  cells : List CVal
  remain : Nat
  stack : List (Nat × List CVal)
deriving DecidableEq, Repr

/-- Cell of a Magicsquare at linear index i. -/
def cellAt (ms : MS) (i : Nat) : CVal :=
  cellAt0 ms.cells i

/-- NCell.xclude for a cell owned by a plain Magicsquare: ignore fixed cells
and absent candidates, remove the candidate, raise Unsolvable (`emptyDomain`)
if the set became empty -- note the removal is stored before the raise.
The parent Magicsquare has no `cellnotval` attribute, so nothing else runs. -/
def xcl (ms : MS) (i v : Nat) : Option Err × MS :=
  match cellAt ms i with
  | .fix _ => (none, ms)
  | .cand l =>
    if v ∈ l then
      if l.erase v = [] then
        (some .emptyDomain, { ms with cells := ms.cells.set i (.cand (l.erase v)) })
      else
        (none, { ms with cells := ms.cells.set i (.cand (l.erase v)) })
    else (none, ms)

/-- Exclude v from each listed cell in order, aborting at the first raise
(the loop bodies of Magicsquare.cellgotval). -/
def xclList (ms : MS) (js : List Nat) (v : Nat) : Option Err × MS :=
  match js with
  | [] => (none, ms)
  | j :: rest =>
    match xcl ms j v with
    | (none, ms') => xclList ms' rest v
    | r => r

/-- Magicsquare.cellgotval for a standalone Magicsquare: decrement `remain`,
then exclude the value from every other cell of the cell's row and column.
(A standalone Magicsquare has no `parent` attribute, so no forwarding.) -/
def cellgotval (ms : MS) (i v : Nat) : Option Err × MS :=
  xclList { ms with remain := ms.remain - 1 } (peers ms.N i) v

/-- NCell.setval for a cell owned by a standalone Magicsquare: no-op when
refixing the same value, Unsolvable (`alreadyFixed`) on a different value,
Unsolvable (`valueUnavailable`) when the value is not a current candidate;
otherwise store the fixed value and signal the grid via cellgotval. -/
def setval (ms : MS) (i v : Nat) : Option Err × MS :=
  match cellAt ms i with
  | .fix w => if w = v then (none, ms) else (some .alreadyFixed, ms)
  | .cand l =>
    if v ∈ l then
      cellgotval { ms with cells := ms.cells.set i (.fix v) } i v
    else (some .valueUnavailable, ms)

/-- First non-fixed cell with at most one candidate, with its candidate list
(the scan of Magicsquare.rule_singlecandidate). -/
def firstSingle : List CVal → Nat → Option (Nat × List Nat)
  | [], _ => none
  | .fix _ :: rest, k => firstSingle rest (k + 1)
  | .cand l :: rest, k =>
    if l.length ≤ 1 then some (k, l) else firstSingle rest (k + 1)

/-- Magicsquare.rule_singlecandidate: set the first single-candidate cell to
its candidate (`getany` on an empty set would raise StopIteration: `crash`). -/
def rule_singlecandidate (ms : MS) : Except Err Bool × MS :=
  match firstSingle ms.cells 0 with
  | none => (.ok false, ms)
  | some (_, []) => (.error .crash, ms)
  | some (i, x :: _) =>
    match setval ms i x with
    | (none, ms') => (.ok true, ms')
    | (some e, ms') => (.error e, ms')

/-- House scan of Magicsquare.try_singlepos_x: walk the house keeping
`found` (the value can appear at all) and the unique unfixed location seen
so far; break early on a cell fixed to x or on a second possible location. -/
def scanH (cells : List CVal) (x : Nat) :
    List Nat → Option Nat → Bool → Bool × Option Nat
  | [], acc, found => (found, acc)
  | i :: rest, acc, found =>
    match cellAt0 cells i with
    | .fix w => if w = x then (true, acc) else scanH cells x rest acc found
    | .cand l =>
      if x ∈ l then
        match acc with
        | none => scanH cells x rest (some i) true
        | some _ => (true, none)
      else scanH cells x rest acc found

/-- Outcome of the single-position rule on one house. -/
inductive HAction where
  | skip
  | raiseNoLoc
  | assign : Nat → HAction
deriving DecidableEq, Repr

/-- What Magicsquare.try_singlepos_x does with one house for value x:
raise Unsolvable (`noHouseLocation`) when no cell can hold x, assign when a
unique unfixed location was found, otherwise move on. -/
def singlepos_house (cells : List CVal) (x : Nat) (house : List Nat) : HAction :=
  match scanH cells x house none false with
  | (false, _) => .raiseNoLoc
  | (true, some i) => .assign i
  | (true, none) => .skip

/-- Magicsquare.try_singlepos_x folded over a list of houses. -/
def try_singlepos_houses (ms : MS) (x : Nat) :
    List (List Nat) → Except Err Bool × MS
  | [] => (.ok false, ms)
  | h :: hs =>
    match singlepos_house ms.cells x h with
    | .raiseNoLoc => (.error .noHouseLocation, ms)
    | .skip => try_singlepos_houses ms x hs
    | .assign i =>
      match setval ms i x with
      | (none, ms') => (.ok true, ms')
      | (some e, ms') => (.error e, ms')

/-- Magicsquare.try_singlepos_x over all houses (rows then columns). -/
def try_singlepos_x (ms : MS) (x : Nat) : Except Err Bool × MS :=
  try_singlepos_houses ms x (allHouses ms.N)

/-- Magicsquare.rule_singlepos: try the single-position rule for
x = 1, ..., N in order. -/
def rule_singlepos_aux (ms : MS) : List Nat → Except Err Bool × MS
  | [] => (.ok false, ms)
  | x :: xs =>
    match try_singlepos_x ms x with
    | (.ok false, ms') => rule_singlepos_aux ms' xs
    | r => r

/-- Magicsquare.rule_singlepos. -/
def rule_singlepos (ms : MS) : Except Err Bool × MS :=
  rule_singlepos_aux ms ((List.range ms.N).map (· + 1))

/-- BasePuzzle.apply_rules for a Magicsquare
(myrules = [rule_singlecandidate, rule_singlepos]). -/
def apply_rules (ms : MS) : Except Err Bool × MS :=
  match rule_singlecandidate ms with
  | (.ok false, ms') => rule_singlepos ms'
  | r => r

/-- The `while self.apply_rules() and self.remain > 0` loop of solve_r,
with fuel. -/
def rulesLoop : Nat → MS → Except Err Unit × MS
  | 0, ms => (.error .fuel, ms)
  | f + 1, ms =>
    match apply_rules ms with
    | (.error e, ms') => (.error e, ms')
    | (.ok false, ms') => (.ok (), ms')
    | (.ok true, ms') =>
      if ms'.remain > 0 then rulesLoop f ms' else (.ok (), ms')

/-- Scan accumulator for findtry: best (index, candidate count) so far. -/
def ftAux : List CVal → Nat → Option (Nat × Nat) → Option Nat
  | [], _, best => best.map (fun b => b.1)
  | .fix _ :: rest, k, best => ftAux rest (k + 1) best
  | .cand l :: rest, k, best =>
    if l.length = 2 then some k
    else
      match best with
      | none => ftAux rest (k + 1) (some (k, l.length))
      | some (bi, bl) =>
        if l.length < bl then ftAux rest (k + 1) (some (k, l.length))
        else ftAux rest (k + 1) (some (bi, bl))

/-- Magicsquare.findtry on a cell list: first unsolved cell with two
candidates if any is met, otherwise the first unsolved cell with the fewest
candidates. -/
def findtryCells (cells : List CVal) : Option Nat :=
  ftAux cells 0 none

/-- Magicsquare.findtry. -/
def findtry (ms : MS) : Option Nat :=
  findtryCells ms.cells

/-- BasePuzzle.backup: push (remain, state()) on the stack. -/
def backup (ms : MS) : MS :=
  { ms with stack := (ms.remain, ms.cells) :: ms.stack }

/-- Magicsquare.restorestate: write the snapshot back cell by cell
(`for i, val in enumerate(state): self.cells[i].restore(val)`). -/
def restoreCells : List CVal → List CVal → List CVal
  | _ :: cs, s :: ss => s :: restoreCells cs ss
  | cur, [] => cur
  | [], _ :: _ => []

/-- BasePuzzle.restore for a Magicsquare: pop the stack, restore the cells,
restore `remain`.  (Popping an empty stack never happens in the solver.) -/
def msRestore (ms : MS) : MS :=
  match ms.stack with
  | [] => ms
  | (r, cs) :: rest =>
    { ms with remain := r, cells := restoreCells ms.cells cs, stack := rest }

/-- The candidate loop of BasePuzzle.solve_r, parameterized by the recursive
solver call: for each candidate push a checkpoint, try the speculative
assignment and recurse; on Unsolvable (from the assignment or the
recursion) or on a False recursive result restore the checkpoint and go on;
when the candidates run out, raise Unsolvable (`triedAll`) -- the line 72
raise. -/
def tryCandsF (recur : MS → Except Err Bool × MS) (ms : MS) (i : Nat) :
    List Nat → Except Err Bool × MS
  | [] => (.error .triedAll, ms)
  | c :: rest =>
    match setval (backup ms) i c with
    | (some e, msd) =>
      if e.isUnsolvable then tryCandsF recur (msRestore msd) i rest
      else (.error e, msd)
    | (none, ms1) =>
      match recur ms1 with
      | (.ok true, ms2) => (.ok true, ms2)
      | (.ok false, ms2) => tryCandsF recur (msRestore ms2) i rest
      | (.error e, ms2) =>
        if e.isUnsolvable then tryCandsF recur (msRestore ms2) i rest
        else (.error e, ms2)

/-- BasePuzzle.solve_r for a Magicsquare: run the rules to a fixpoint
(an Unsolvable raised there means `return False`), succeed when nothing
remains, otherwise pick a pivot by findtry and try each of its candidates
under a checkpoint. -/
def solve_r : Nat → MS → Except Err Bool × MS
  | 0, ms => (.error .fuel, ms)
  | f + 1, ms =>
    match rulesLoop (f + 1) ms with
    | (.error e, ms') =>
      if e.isUnsolvable then (.ok false, ms') else (.error e, ms')
    | (.ok _, ms') =>
      if ms'.remain = 0 then (.ok true, ms')
      else
        match findtry ms' with
        | none => (.error .crash, ms')
        | some i =>
          match cellAt ms' i with
          | .fix _ => (.error .crash, ms')
          | .cand l => tryCandsF (solve_r f) ms' i l

/-- BasePuzzle.solve for a Magicsquare: True from solve_r means the solved
puzzle itself, False means None; an exception propagates. -/
def msSolve (fuel : Nat) (ms : MS) : Except Err (Option MS) × MS :=
  match solve_r fuel ms with
  | (.ok true, ms') => (.ok (some ms'), ms')
  | (.ok false, ms') => (.ok none, ms')
  | (.error e, ms') => (.error e, ms')

/-- Fresh cells of an N x N grid: every cell holds candidates 1..N. -/
def initCells (N : Nat) : List CVal :=
  List.replicate (N * N) (.cand ((List.range N).map (· + 1)))

/-- Magicsquare.__init__ (cell state only; rendering names omitted). -/
def initMS (N : Nat) : MS :=
  { N := N, cells := initCells N, remain := N * N, stack := [] }

/-- Magicsquare.setgivens: apply (row, col, val) triples by setval, stopping
at the first raise. -/
def setgivens (ms : MS) : List (Nat × Nat × Nat) → Option Err × MS
  | [] => (none, ms)
  | (r, c, v) :: rest =>
    match setval ms (r * ms.N + c) v with
    | (none, ms') => setgivens ms' rest
    | e => e

/-- Value of an Eulero pair map entry: either located at a primary cell
(eulero.py stores the cell object; its immutable linear index stands for it)
or the set of primary cells where the pair can still occur, kept as an
ascending index list. -/
inductive PVal where
  | loc : Nat → PVal
  | locs : List Nat → PVal
deriving DecidableEq, Repr

/-- The Eulero pair map, an association list in the insertion order of the
Python dict: (1,1), (1,2), ..., (n,n). -/
abbrev Pairs := List ((Nat × Nat) × PVal)

/-- Dict lookup in the pair map (all keys are always present). -/
def pairsGet (ps : Pairs) (k : Nat × Nat) : PVal :=
  ((ps.find? (fun e => decide (e.1 = k))).map (fun e => e.2)).getD (.locs [])

/-- Dict update in the pair map: Python keeps the key position. -/
def pairsSet (ps : Pairs) (k : Nat × Nat) (v : PVal) : Pairs :=
  ps.map (fun e => if e.1 = k then (k, v) else e)

/-- Snapshot payload of Eulero.state(): each square's cell snapshot and
remain, plus pairstate(). -/
structure EulSnap where
  s0 : List CVal × Nat
  s1 : List CVal × Nat
  ps : Pairs
deriving DecidableEq, Repr

/-- State of an Eulero (eulero.py): the two sub-Magicsquares' cells and
remain counters, the pair map, the shared remain counter and the
backtracking stack (top at the head). -/
structure Eul where
  n : Nat
  c0 : List CVal
  c1 : List CVal
  r0 : Nat
  r1 : Nat
  pairs : Pairs
  remain : Nat
  stack : List (Nat × EulSnap)
deriving DecidableEq, Repr

/-- Cells of sub-square p (0 = left, 1 = right). -/
def getSq (e : Eul) (p : Nat) : List CVal :=
  if p = 0 then e.c0 else e.c1

/-- Replace the cells of sub-square p. -/
def setSqCells (e : Eul) (p : Nat) (cs : List CVal) : Eul :=
  if p = 0 then { e with c0 := cs } else { e with c1 := cs }

/-- Cell of sub-square p at linear index i. -/
def sqCellAt (e : Eul) (p i : Nat) : CVal :=
  cellAt0 (getSq e p) i

/-- Decrement the remain counter of sub-square p
(the `self.remain -= 1` of Magicsquare.cellgotval). -/
def decSqRemain (e : Eul) (p : Nat) : Eul :=
  if p = 0 then { e with r0 := e.r0 - 1 } else { e with r1 := e.r1 - 1 }

/-- NCell.xclude for a cell owned by an Eulero sub-square.  The cell's
parent is that sub-Magicsquare, which has no `cellnotval` attribute, so --
exactly as for a standalone Magicsquare -- only the local candidate removal
happens and `Eulero.cellnotval` is never reached. -/
def eulXcl (e : Eul) (p i v : Nat) : Option Err × Eul :=
  match sqCellAt e p i with
  | .fix _ => (none, e)
  | .cand l =>
    if v ∈ l then
      if l.erase v = [] then
        (some .emptyDomain, setSqCells e p ((getSq e p).set i (.cand (l.erase v))))
      else
        (none, setSqCells e p ((getSq e p).set i (.cand (l.erase v))))
    else (none, e)

/-- Exclude v from the listed cells of sub-square p in order, aborting at
the first raise. -/
def eulXclList (e : Eul) (p : Nat) (js : List Nat) (v : Nat) :
    Option Err × Eul :=
  match js with
  | [] => (none, e)
  | j :: rest =>
    match eulXcl e p j v with
    | (none, e') => eulXclList e' p rest v
    | r => r

/-- The zip loop of Eulero.setpair: for every aligned cell pair other than
the located one, if the left cell is fixed to the pair's left value exclude
the right value from the right cell, and symmetrically (re-reading the
state between the two checks, as the Python does). -/
def setpairZip (e : Eul) (pa pb idx : Nat) : List Nat → Option Err × Eul
  | [] => (none, e)
  | k :: rest =>
    if k = idx then setpairZip e pa pb idx rest
    else
      match (if sqCellAt e 0 k = .fix pa then eulXcl e 1 k pb else (none, e)) with
      | (some er, e') => (some er, e')
      | (none, e1) =>
        match (if sqCellAt e1 1 k = .fix pb then eulXcl e1 0 k pa
               else (none, e1)) with
        | (some er, e') => (some er, e')
        | (none, e2) => setpairZip e2 pa pb idx rest

/-- Eulero.setpair: raise Unsolvable (`pairConflict`) if the pair is already
located elsewhere, warn-and-return if located at the same cell; otherwise
mark it located and run the zip loop. -/
def setpair (e : Eul) (pr : Nat × Nat) (idx : Nat) : Option Err × Eul :=
  match pairsGet e.pairs pr with
  | .loc j => if j ≠ idx then (some .pairConflict, e) else (none, e)
  | .locs _ =>
    setpairZip { e with pairs := pairsSet e.pairs pr (.loc idx) }
      pr.1 pr.2 idx (List.range (e.n * e.n))

/-- The else branch of Eulero.cellgotval: for each value the counterpart
cell could still take (in ascending set order), if the corresponding pair is
already located, exclude that value from the counterpart. -/
def eulPairChecks (e : Eul) (p i v : Nat) : List Nat → Option Err × Eul
  | [] => (none, e)
  | ov :: rest =>
    match pairsGet e.pairs (if p = 0 then (v, ov) else (ov, v)) with
    | .loc _ =>
      match eulXcl e (1 - p) i ov with
      | (none, e') => eulPairChecks e' p i v rest
      | r => r
    | .locs _ => eulPairChecks e p i v rest

/-- Eulero.cellgotval: decrement the shared remain; if the counterpart cell
at the same position is fixed the full pair is known (setpair), otherwise
prune the counterpart's candidates against already-located pairs. -/
def eulCellgotvalTop (e : Eul) (p i v : Nat) : Option Err × Eul :=
  match sqCellAt { e with remain := e.remain - 1 } (1 - p) i with
  | .fix w =>
    setpair { e with remain := e.remain - 1 } (if p = 0 then (v, w) else (w, v)) i
  | .cand l => eulPairChecks { e with remain := e.remain - 1 } p i v l

/-- NCell.setval for a cell owned by an Eulero sub-square: the local checks,
then Magicsquare.cellgotval of the sub-square (its remain, its row/column
exclusions), which forwards to Eulero.cellgotval. -/
def eulSetval (e : Eul) (p i v : Nat) : Option Err × Eul :=
  match sqCellAt e p i with
  | .fix w => if w = v then (none, e) else (some .alreadyFixed, e)
  | .cand l =>
    if v ∈ l then
      match eulXclList (decSqRemain (setSqCells e p ((getSq e p).set i (.fix v))) p)
          p (peers e.n i) v with
      | (some er, e') => (some er, e')
      | (none, e2) => eulCellgotvalTop e2 p i v
    else (some .valueUnavailable, e)

/-- Eulero.cellnotval as written in the source (it is never invoked by the
live code, because nothing forwards candidate-exclusion events to the
Eulero): for every pair whose component at position p equals v, drop the
primary cell at index i from the pair's location set and raise Unsolvable
(`pairLocExhausted`) if that set becomes empty. -/
def eulCellnotvalGo (e : Eul) (p i v : Nat) : List Nat → Option Err × Eul
  | [] => (none, e)
  | ov :: rest =>
    match pairsGet e.pairs (if p = 0 then (v, ov) else (ov, v)) with
    | .loc _ => eulCellnotvalGo e p i v rest
    | .locs l =>
      if i ∈ l then
        let l' := l.erase i
        let e' := { e with
          pairs := pairsSet e.pairs (if p = 0 then (v, ov) else (ov, v))
            (.locs l') }
        if l' = [] then (some .pairLocExhausted, e')
        else eulCellnotvalGo e' p i v rest
      else eulCellnotvalGo e p i v rest

/-- Eulero.cellnotval (dead code in the repository; embedded for
comparison with the claimed behaviour). -/
def eulCellnotval (e : Eul) (p i v : Nat) : Option Err × Eul :=
  eulCellnotvalGo e p i v ((List.range e.n).map (· + 1))

/-- Magicsquare.rule_singlecandidate applied to sub-square p of an Eulero
(assignment goes through eulSetval and hence the Eulero hooks). -/
def eulRuleSingleCand (e : Eul) (p : Nat) : Except Err Bool × Eul :=
  match firstSingle (getSq e p) 0 with
  | none => (.ok false, e)
  | some (_, []) => (.error .crash, e)
  | some (i, x :: _) =>
    match eulSetval e p i x with
    | (none, e') => (.ok true, e')
    | (some er, e') => (.error er, e')

/-- Magicsquare.try_singlepos_x for sub-square p of an Eulero. -/
def eulTryHouses (e : Eul) (p x : Nat) : List (List Nat) → Except Err Bool × Eul
  | [] => (.ok false, e)
  | h :: hs =>
    match singlepos_house (getSq e p) x h with
    | .raiseNoLoc => (.error .noHouseLocation, e)
    | .skip => eulTryHouses e p x hs
    | .assign i =>
      match eulSetval e p i x with
      | (none, e') => (.ok true, e')
      | (some er, e') => (.error er, e')

/-- Magicsquare.rule_singlepos for sub-square p of an Eulero. -/
def eulRuleSinglePosAux (e : Eul) (p : Nat) : List Nat → Except Err Bool × Eul
  | [] => (.ok false, e)
  | x :: xs =>
    match eulTryHouses e p x (allHouses e.n) with
    | (.ok false, e') => eulRuleSinglePosAux e' p xs
    | r => r

/-- Magicsquare.rule_singlepos for sub-square p of an Eulero. -/
def eulRuleSinglePos (e : Eul) (p : Nat) : Except Err Bool × Eul :=
  eulRuleSinglePosAux e p ((List.range e.n).map (· + 1))

/-- Eulero.rule_singlepairpos: find the first pair whose location set has a
single cell (raising `noPairLocation` on an empty set), pop that cell
(which empties the live set in the dict), assign both components there if
still unsolved, then record the pair as located. -/
def ruleSinglePairPos (e : Eul) : Except Err Bool × Eul :=
  ruleSinglePairGo e e.pairs
where
  ruleSinglePairGo (e : Eul) : Pairs → Except Err Bool × Eul
    | [] => (.ok false, e)
    | (_, .loc _) :: rest => ruleSinglePairGo e rest
    | (pr, .locs l) :: rest =>
      if l.length > 1 then ruleSinglePairGo e rest
      else if l = [] then (.error .noPairLocation, e)
      else
        match sqCellAt { e with pairs := pairsSet e.pairs pr (.locs []) } 0 (l.headD 0) with
        | .cand _ =>
          match eulSetval { e with pairs := pairsSet e.pairs pr (.locs []) } 0
              (l.headD 0) pr.1 with
          | (some er, e2) => (.error er, e2)
          | (none, e2) =>
            match sqCellAt e2 1 (l.headD 0) with
            | .cand _ =>
              match eulSetval e2 1 (l.headD 0) pr.2 with
              | (some er, e3) => (.error er, e3)
              | (none, e3) =>
                (.ok true, { e3 with pairs := pairsSet e3.pairs pr (.loc (l.headD 0)) })
            | .fix _ =>
              (.ok true, { e2 with pairs := pairsSet e2.pairs pr (.loc (l.headD 0)) })
        | .fix _ =>
          match sqCellAt { e with pairs := pairsSet e.pairs pr (.locs []) } 1 (l.headD 0) with
          | .cand _ =>
            match eulSetval { e with pairs := pairsSet e.pairs pr (.locs []) } 1
                (l.headD 0) pr.2 with
            | (some er, e2) => (.error er, e2)
            | (none, e2) =>
              (.ok true, { e2 with pairs := pairsSet e2.pairs pr (.loc (l.headD 0)) })
          | .fix _ =>
            (.ok false, { e with pairs := pairsSet (pairsSet e.pairs pr (.locs [])) pr (.loc (l.headD 0)) })

/-- BasePuzzle.apply_rules for an Eulero (myrules = left square's two rules,
right square's two rules, then rule_singlepairpos). -/
def eulApplyRules (e : Eul) : Except Err Bool × Eul :=
  match eulRuleSingleCand e 0 with
  | (.ok false, e1) =>
    match eulRuleSinglePos e1 0 with
    | (.ok false, e2) =>
      match eulRuleSingleCand e2 1 with
      | (.ok false, e3) =>
        match eulRuleSinglePos e3 1 with
        | (.ok false, e4) => ruleSinglePairPos e4
        | r => r
      | r => r
    | r => r
  | r => r

/-- Eulero.state(): per square (cell snapshot, remain), plus pairstate(). -/
def eulState (e : Eul) : EulSnap :=
  ⟨(e.c0, e.r0), (e.c1, e.r1), e.pairs⟩

/-- BasePuzzle.backup for an Eulero. -/
def eulBackup (e : Eul) : Eul :=
  { e with stack := (e.remain, eulState e) :: e.stack }

/-- Eulero.restorestate: restore both squares' cells and remain counters and
the pair map (the shared remain is restored by BasePuzzle.restore). -/
def eulRestorestate (e : Eul) (st : EulSnap) : Eul :=
  { e with
    c0 := restoreCells e.c0 st.s0.1
    r0 := st.s0.2
    c1 := restoreCells e.c1 st.s1.1
    r1 := st.s1.2
    pairs := st.ps }

/-- BasePuzzle.restore for an Eulero. -/
def eulRestore (e : Eul) : Eul :=
  match e.stack with
  | [] => e
  | (r, st) :: rest => { eulRestorestate e st with remain := r, stack := rest }

/-- Eulero.findtry: take the left square's pivot when it has two candidates;
otherwise compare it with the right square's pivot, the right square winning
ties.  The result is (square position, linear index). -/
def eulFindtry (e : Eul) : Option (Nat × Nat) :=
  match (if e.r0 ≠ 0 then findtryCells e.c0 else none) with
  | some i =>
    if cvLen (cellAt0 e.c0 i) = 2 then some (0, i)
    else
      match findtryCells e.c1 with
      | none => some (0, i)
      | some j =>
        if cvLen (cellAt0 e.c0 i) < cvLen (cellAt0 e.c1 j) then some (0, i)
        else some (1, j)
  | none => (findtryCells e.c1).map (fun j => (1, j))

/-- The rules loop of solve_r for an Eulero. -/
def eulRulesLoop : Nat → Eul → Except Err Unit × Eul
  | 0, e => (.error .fuel, e)
  | f + 1, e =>
    match eulApplyRules e with
    | (.error er, e') => (.error er, e')
    | (.ok false, e') => (.ok (), e')
    | (.ok true, e') =>
      if e'.remain > 0 then eulRulesLoop f e' else (.ok (), e')

/-- The candidate loop of BasePuzzle.solve_r for an Eulero, parameterized by
the recursive solver call. -/
def eulTryCandsF (recur : Eul → Except Err Bool × Eul) (e : Eul) (p i : Nat) :
    List Nat → Except Err Bool × Eul
  | [] => (.error .triedAll, e)
  | c :: rest =>
    match eulSetval (eulBackup e) p i c with
    | (some er, ed) =>
      if er.isUnsolvable then eulTryCandsF recur (eulRestore ed) p i rest
      else (.error er, ed)
    | (none, e1) =>
      match recur e1 with
      | (.ok true, e2) => (.ok true, e2)
      | (.ok false, e2) => eulTryCandsF recur (eulRestore e2) p i rest
      | (.error er, e2) =>
        if er.isUnsolvable then eulTryCandsF recur (eulRestore e2) p i rest
        else (.error er, e2)

/-- BasePuzzle.solve_r for an Eulero. -/
def eulSolve_r : Nat → Eul → Except Err Bool × Eul
  | 0, e => (.error .fuel, e)
  | f + 1, e =>
    match eulRulesLoop (f + 1) e with
    | (.error er, e') =>
      if er.isUnsolvable then (.ok false, e') else (.error er, e')
    | (.ok _, e') =>
      if e'.remain = 0 then (.ok true, e')
      else
        match eulFindtry e' with
        | none => (.error .crash, e')
        | some (p, i) =>
          match sqCellAt e' p i with
          | .fix _ => (.error .crash, e')
          | .cand l => eulTryCandsF (eulSolve_r f) e' p i l

/-- BasePuzzle.solve for an Eulero. -/
def eulSolve (fuel : Nat) (e : Eul) : Except Err (Option Eul) × Eul :=
  match eulSolve_r fuel e with
  | (.ok true, e') => (.ok (some e'), e')
  | (.ok false, e') => (.ok none, e')
  | (.error er, e') => (.error er, e')

/-- Eulero.__init__: two fresh n x n squares, remain = 2 n^2, and every pair
initially possible at every primary cell, keys in the order
(1,1), (1,2), ..., (n,n). -/
def initEul (n : Nat) : Eul :=
  { n := n
    c0 := initCells n
    c1 := initCells n
    r0 := n * n
    r1 := n * n
    pairs :=
      ((List.range n).map (· + 1)).flatMap (fun i =>
        ((List.range n).map (· + 1)).map (fun j =>
          ((i, j), PVal.locs (List.range (n * n)))))
    remain := 2 * (n * n)
    stack := [] }

/-- State of sudoku.py's standalone Sudoku class, restricted to what
add_given touches: the box dimensions, the row-major cells and the list of
given cell indices.  (This class has its own Cell type and, unlike
msquare.py, performs no propagation when a given is applied.) -/
structure Sud where
  n : Nat
  m : Nat
  cells : List CVal
  givens : List Nat
deriving DecidableEq, Repr

/-- The Cell.val setter of sudoku.py: refuse a different value on a fixed
cell and an excluded value, otherwise fix the value.  No grid signalling of
any kind happens. -/
def sudValSet (c : CVal) (v : Nat) : Option Err × CVal :=
  match c with
  | .fix w => if w = v then (none, .fix w) else (some .alreadyFixed, .fix w)
  | .cand l => if v ∈ l then (none, .fix v) else (some .valueUnavailable, .cand l)

/-- Sudoku.add_given: set the cell's value through the setter and append the
cell to the givens list. -/
def addGiven (s : Sud) (r c v : Nat) : Option Err × Sud :=
  let i := s.n * s.m * r + c
  match sudValSet (cellAt0 s.cells i) v with
  | (none, cv) =>
    (none, { s with cells := s.cells.set i cv, givens := s.givens ++ [i] })
  | (some er, _) => (some er, s)

/-- Sudoku.__init__ with box size n x m (N = n * m): fresh cells, no givens. -/
def initSud (n m : Nat) : Sud :=
  { n := n, m := m
    cells := List.replicate (n * m * (n * m)) (.cand ((List.range (n * m)).map (· + 1)))
    givens := [] }

/-!  Statement-side notions used by the theorems below. -/

/-- Cells in range 1..N with duplicate-free candidate lists. -/
def inRange (N : Nat) : CVal → Prop
  | .fix v => 1 ≤ v ∧ v ≤ N
  | .cand l => (∀ x ∈ l, 1 ≤ x ∧ x ≤ N) ∧ l.Nodup

/-- All-different compatibility of two cells sharing a house: fixed values
differ and a fixed value is not a candidate of the other cell. -/
def compatible : CVal → CVal → Prop
  | .fix a, .fix b => a ≠ b
  | .fix a, .cand l => a ∉ l
  | .cand l, .fix b => b ∉ l
  | .cand _, .cand _ => True

/-- Two linear indices share a house of the N x N grid (same row or same
column). -/
def sameHouse (N i j : Nat) : Prop :=
  i / N = j / N ∨ i % N = j % N

/-- The state invariant of a Magicsquare maintained by the solver. -/
structure Inv (ms : MS) : Prop where
  hN : 1 ≤ ms.N
  hlen : ms.cells.length = ms.N * ms.N
  hrange : ∀ i, i < ms.N * ms.N → inRange ms.N (cellAt ms i)
  hcons : ∀ i j, i < ms.N * ms.N → j < ms.N * ms.N → i ≠ j →
    sameHouse ms.N i j → compatible (cellAt ms i) (cellAt ms j)
  hremain : ms.remain = countNonFix ms.cells

/-- Shape preservation: an operation keeps the grid size and the cell count.
This holds for every output state, including the dirty state at a raise. -/
def Pres (a b : MS) : Prop :=
  b.N = a.N ∧ b.cells.length = a.cells.length

/-- Backtracking-stack discipline of a solve_r result: a failed search
leaves the stack exactly as it was (every checkpoint it pushed was popped by
a restore, in order), while a successful search leaves the entry stack
below the checkpoints of the winning branch. -/
def StackOK (a : MS) : Except Err Bool × MS → Prop
  | (.ok true, b) => a.stack <:+ b.stack
  | (.ok false, b) => b.stack = a.stack
  | (.error e, b) => e.isUnsolvable = true → b.stack = a.stack

/-- Stack discipline of an Eulero solve_r result (top of stack at the
head): failure restores the entry stack, success leaves it as a suffix
under the winning branch's checkpoints. -/
def EulStackOK (a : Eul) : Except Err Bool × Eul → Prop
  | (.ok true, b) => a.stack <:+ b.stack
  | (.ok false, b) => b.stack = a.stack
  | (.error e, b) => e.isUnsolvable = true → b.stack = a.stack

/-! Basic utilities. -/

theorem cellAt0_set (cells : List CVal) (i k : Nat) (c : CVal) :
    cellAt0 (cells.set i c) k =
      if k = i ∧ i < cells.length then c else cellAt0 cells k := by
  induction cells generalizing i k with
  | nil => simp [cellAt0]
  | cons hd tl ih =>
    cases i with
    | zero =>
      cases k with
      | zero => simp [cellAt0]
      | succ k => simp [cellAt0, List.set]
    | succ i =>
      cases k with
      | zero => simp [cellAt0, List.set]
      | succ k =>
        have := ih i k
        simp only [List.set, cellAt0, List.getD_cons_succ] at this ⊢
        rw [this]
        by_cases h1 : k = i
        · by_cases h2 : i < tl.length <;>
            simp [h1, h2, Nat.succ_lt_succ_iff]
        · simp [h1]

theorem length_set_eq (cells : List CVal) (i : Nat) (c : CVal) :
    (cells.set i c).length = cells.length := by
  simp

theorem cellAt0_eq_getElem (cells : List CVal) (i : Nat)
    (hi : i < cells.length) : cellAt0 cells i = cells[i] := by
  induction cells generalizing i with
  | nil => simp at hi
  | cons hd tl ih =>
    cases i with
    | zero => simp [cellAt0]
    | succ i =>
      have hi' : i < tl.length := by simpa [Nat.succ_lt_succ_iff] using hi
      simpa [cellAt0] using ih i hi'

theorem countP_set (cells : List CVal) (i : Nat) (c : CVal)
    (p : CVal → Bool) (hi : i < cells.length) :
    (cells.set i c).countP p + (if p (cellAt0 cells i) then 1 else 0) =
      cells.countP p + (if p c then 1 else 0) := by
  rw [cellAt0_eq_getElem cells i hi]
  induction cells generalizing i with
  | nil => simp at hi
  | cons hd tl ih =>
    cases i with
    | zero =>
      simp only [List.set, List.countP_cons, List.getElem_cons_zero]
      by_cases h1 : p hd <;> by_cases h2 : p c <;> simp [h1, h2]
    | succ i =>
      have hi' : i < tl.length := by simpa [Nat.succ_lt_succ_iff] using hi
      have := ih i hi'
      simp only [List.set, List.countP_cons, List.getElem_cons_succ] at this ⊢
      by_cases h1 : p hd <;> simp [h1] <;> omega

theorem restoreCells_length (cur snap : List CVal) :
    (restoreCells cur snap).length = cur.length := by
  induction cur generalizing snap with
  | nil => cases snap <;> simp [restoreCells]
  | cons hd tl ih =>
    cases snap with
    | nil => simp [restoreCells]
    | cons s ss => simp [restoreCells, ih]

theorem restoreCells_eq_snap (cur snap : List CVal)
    (h : cur.length = snap.length) : restoreCells cur snap = snap := by
  induction cur generalizing snap with
  | nil => cases snap with
    | nil => simp [restoreCells]
    | cons s ss => simp at h
  | cons hd tl ih =>
    cases snap with
    | nil => simp at h
    | cons s ss =>
      simp only [List.length_cons, Nat.succ_inj] at h
      simp [restoreCells, ih ss h]

theorem pres_refl (a : MS) : Pres a a := ⟨rfl, rfl⟩

theorem pres_trans {a b c : MS} (h1 : Pres a b) (h2 : Pres b c) : Pres a c :=
  ⟨h2.1.trans h1.1, h2.2.trans h1.2⟩

/-! Shape and stack preservation of the Magicsquare operations, for every
output state (also the dirty one at a raise). -/

theorem xcl_pres (ms : MS) (i v : Nat) : Pres ms (xcl ms i v).2 := by
  unfold xcl
  cases cellAt ms i with
  | fix w => exact pres_refl ms
  | cand l =>
    by_cases hv : v ∈ l
    · by_cases he : l.erase v = [] <;> simp [hv, he, Pres]
    · simp [hv, pres_refl]

theorem xcl_stack (ms : MS) (i v : Nat) : (xcl ms i v).2.stack = ms.stack := by
  unfold xcl
  cases cellAt ms i with
  | fix w => rfl
  | cand l =>
    by_cases hv : v ∈ l
    · by_cases he : l.erase v = [] <;> simp [hv, he]
    · simp [hv]

theorem xcl_remain (ms : MS) (i v : Nat) : (xcl ms i v).2.remain = ms.remain := by
  unfold xcl
  cases cellAt ms i with
  | fix w => rfl
  | cand l =>
    by_cases hv : v ∈ l
    · by_cases he : l.erase v = [] <;> simp [hv, he]
    · simp [hv]

theorem xclList_pres (js : List Nat) (ms : MS) (v : Nat) :
    Pres ms (xclList ms js v).2 := by
  induction js generalizing ms with
  | nil => exact pres_refl ms
  | cons j rest ih =>
    unfold xclList
    rcases hx : xcl ms j v with ⟨er, ms1⟩
    have hp : Pres ms ms1 := by have := xcl_pres ms j v; rwa [hx] at this
    cases er with
    | none => exact pres_trans hp (ih ms1)
    | some e => exact hp

theorem xclList_stack (js : List Nat) (ms : MS) (v : Nat) :
    (xclList ms js v).2.stack = ms.stack := by
  induction js generalizing ms with
  | nil => rfl
  | cons j rest ih =>
    unfold xclList
    rcases hx : xcl ms j v with ⟨er, ms1⟩
    have hs : ms1.stack = ms.stack := by
      have := xcl_stack ms j v; rwa [hx] at this
    cases er with
    | none => rw [ih ms1, hs]
    | some e => exact hs

theorem setval_pres (ms : MS) (i v : Nat) : Pres ms (setval ms i v).2 := by
  unfold setval
  cases cellAt ms i with
  | fix w =>
    by_cases hw : w = v <;> simp [hw, pres_refl]
  | cand l =>
    by_cases hv : v ∈ l
    · simp only [hv, if_pos]
      refine pres_trans ?_ (xclList_pres _ _ _)
      exact ⟨rfl, by simp⟩
    · simp [hv, pres_refl]

theorem setval_stack (ms : MS) (i v : Nat) :
    (setval ms i v).2.stack = ms.stack := by
  unfold setval
  cases cellAt ms i with
  | fix w =>
    by_cases hw : w = v <;> simp [hw]
  | cand l =>
    by_cases hv : v ∈ l
    · simp only [hv, if_pos]
      exact xclList_stack _ _ _
    · simp [hv]

theorem rule_singlecandidate_pres (ms : MS) :
    Pres ms (rule_singlecandidate ms).2 ∧
      (rule_singlecandidate ms).2.stack = ms.stack := by
  unfold rule_singlecandidate
  split
  · exact ⟨pres_refl ms, rfl⟩
  · exact ⟨pres_refl ms, rfl⟩
  · rename_i i x xs heq
    rcases hs : setval ms i x with ⟨er, ms'⟩
    have hp := setval_pres ms i x
    have hst := setval_stack ms i x
    rw [hs] at hp hst
    cases er <;> exact ⟨hp, hst⟩

theorem try_singlepos_houses_pres (hs : List (List Nat)) (ms : MS) (x : Nat) :
    Pres ms (try_singlepos_houses ms x hs).2 ∧
      (try_singlepos_houses ms x hs).2.stack = ms.stack := by
  induction hs generalizing ms with
  | nil => exact ⟨pres_refl ms, rfl⟩
  | cons h rest ih =>
    unfold try_singlepos_houses
    rcases hsp : singlepos_house ms.cells x h with _ | _ | i
    · exact ih ms
    · exact ⟨pres_refl ms, rfl⟩
    · simp only []
      rcases hsv : setval ms i x with ⟨er, ms'⟩
      have hp := setval_pres ms i x
      have hst := setval_stack ms i x
      rw [hsv] at hp hst
      cases er <;> exact ⟨hp, hst⟩

theorem rule_singlepos_aux_pres (xs : List Nat) (ms : MS) :
    Pres ms (rule_singlepos_aux ms xs).2 ∧
      (rule_singlepos_aux ms xs).2.stack = ms.stack := by
  induction xs generalizing ms with
  | nil => exact ⟨pres_refl ms, rfl⟩
  | cons x rest ih =>
    unfold rule_singlepos_aux try_singlepos_x
    rcases ht : try_singlepos_houses ms x (allHouses ms.N) with ⟨r, ms'⟩
    have hp := try_singlepos_houses_pres (allHouses ms.N) ms x
    rw [ht] at hp
    match r with
    | .ok false =>
      have h2 := ih ms'
      exact ⟨pres_trans hp.1 h2.1, h2.2.trans hp.2⟩
    | .ok true => exact hp
    | .error e => exact hp

theorem apply_rules_pres (ms : MS) :
    Pres ms (apply_rules ms).2 ∧ (apply_rules ms).2.stack = ms.stack := by
  unfold apply_rules
  rcases hr : rule_singlecandidate ms with ⟨r, ms'⟩
  have hp := rule_singlecandidate_pres ms
  rw [hr] at hp
  match r with
  | .ok false =>
    have h2 := rule_singlepos_aux_pres ((List.range ms'.N).map (· + 1)) ms'
    unfold rule_singlepos
    exact ⟨pres_trans hp.1 h2.1, h2.2.trans hp.2⟩
  | .ok true => exact hp
  | .error e => exact hp

theorem rulesLoop_pres (f : Nat) (ms : MS) :
    Pres ms (rulesLoop f ms).2 ∧ (rulesLoop f ms).2.stack = ms.stack := by
  induction f generalizing ms with
  | zero => exact ⟨pres_refl ms, rfl⟩
  | succ f ih =>
    unfold rulesLoop
    rcases hr : apply_rules ms with ⟨r, ms'⟩
    have hp := apply_rules_pres ms
    rw [hr] at hp
    match r with
    | .error e => exact hp
    | .ok false => exact hp
    | .ok true =>
      simp only []
      by_cases hrem : ms'.remain > 0
      · rw [if_pos hrem]
        have h2 := ih ms'
        exact ⟨pres_trans hp.1 h2.1, h2.2.trans hp.2⟩
      · rw [if_neg hrem]
        exact hp

theorem backup_pres (ms : MS) : Pres ms (backup ms) := ⟨rfl, rfl⟩

theorem msRestore_pres (ms : MS) : Pres ms (msRestore ms) := by
  unfold msRestore
  rcases hst : ms.stack with _ | ⟨⟨r, cs⟩, rest⟩
  · exact pres_refl ms
  · exact ⟨rfl, by simp [restoreCells_length]⟩

/-- Restoring a dirty state whose stack still holds the checkpoint of a
clean state (and whose shape was preserved) gives back exactly the clean
state. -/
theorem msRestore_exact (a b : MS) (hN : b.N = a.N)
    (hlen : b.cells.length = a.cells.length)
    (hst : b.stack = (a.remain, a.cells) :: a.stack) :
    msRestore b = a := by
  unfold msRestore
  rw [hst]
  have hcells : restoreCells b.cells a.cells = a.cells :=
    restoreCells_eq_snap _ _ (by rw [hlen])
  show MS.mk b.N (restoreCells b.cells a.cells) a.remain a.stack = a
  rw [hcells, hN]

theorem tryCandsF_pres (recur : MS → Except Err Bool × MS)
    (hrec : ∀ s, Pres s (recur s).2) (cs : List Nat) :
    ∀ (ms : MS) (i : Nat), Pres ms (tryCandsF recur ms i cs).2 := by
  induction cs with
  | nil => intro ms i; exact pres_refl ms
  | cons c rest ih =>
    intro ms i
    unfold tryCandsF
    rcases hsv : setval (backup ms) i c with ⟨er, ms1⟩
    have hp1 : Pres ms ms1 := by
      have := setval_pres (backup ms) i c
      rw [hsv] at this
      exact pres_trans (backup_pres ms) this
    cases er with
    | some e =>
      simp only []
      by_cases hu : e.isUnsolvable = true
      · rw [if_pos hu]
        exact pres_trans (pres_trans hp1 (msRestore_pres ms1)) (ih _ i)
      · rw [if_neg hu]
        exact hp1
    | none =>
      simp only []
      rcases hr : recur ms1 with ⟨r, ms2⟩
      have hp2 : Pres ms ms2 := by
        have := hrec ms1
        rw [hr] at this
        exact pres_trans hp1 this
      match r with
      | .ok true => exact hp2
      | .ok false =>
        exact pres_trans (pres_trans hp2 (msRestore_pres ms2)) (ih _ i)
      | .error e =>
        simp only []
        by_cases hu : e.isUnsolvable = true
        · rw [if_pos hu]
          exact pres_trans (pres_trans hp2 (msRestore_pres ms2)) (ih _ i)
        · rw [if_neg hu]
          exact hp2

theorem solve_r_pres (fuel : Nat) (ms : MS) : Pres ms (solve_r fuel ms).2 := by
  induction fuel generalizing ms with
  | zero => exact pres_refl ms
  | succ f ih =>
    unfold solve_r
    rcases hr : rulesLoop (f + 1) ms with ⟨r, ms'⟩
    have hp := rulesLoop_pres (f + 1) ms
    rw [hr] at hp
    match r with
    | .error e =>
      simp only []
      by_cases hu : e.isUnsolvable = true
      · rw [if_pos hu]; exact hp.1
      · rw [if_neg hu]; exact hp.1
    | .ok _ =>
      simp only []
      by_cases hrem : ms'.remain = 0
      · rw [if_pos hrem]
        exact hp.1
      · rw [if_neg hrem]
        rcases hf : findtry ms' with _ | i
        · exact hp.1
        · simp only []
          rcases hc : cellAt ms' i with w | l
          · exact hp.1
          · exact pres_trans hp.1 (tryCandsF_pres (solve_r f) ih l ms' i)

/-! Stack discipline of the backtracking search. -/

theorem stackOK_of_eq {a b : MS} (h : b.stack = a.stack)
    {r : Except Err Bool × MS} (hr : StackOK b r) : StackOK a r := by
  rcases r with ⟨res, st⟩
  match res with
  | .ok true =>
    have hr' : b.stack <:+ st.stack := hr
    rw [h] at hr'
    exact hr'
  | .ok false =>
    have hr' : st.stack = b.stack := hr
    rw [h] at hr'
    exact hr'
  | .error e =>
    intro hu
    have hr' : st.stack = b.stack := hr hu
    rw [h] at hr'
    exact hr'

theorem msRestore_stack (ms1 : MS) (r : Nat) (cs : List CVal)
    (tail : List (Nat × List CVal)) (h : ms1.stack = (r, cs) :: tail) :
    (msRestore ms1).stack = tail := by
  unfold msRestore
  rw [h]

theorem tryCandsF_stackOK (recur : MS → Except Err Bool × MS)
    (hrecS : ∀ s, StackOK s (recur s)) (cs : List Nat) :
    ∀ (ms : MS) (i : Nat), StackOK ms (tryCandsF recur ms i cs) := by
  induction cs with
  | nil =>
    intro ms i
    exact fun _ => rfl
  | cons c rest ih =>
    intro ms i
    unfold tryCandsF
    rcases hsv : setval (backup ms) i c with ⟨er, ms1⟩
    have hst1 : ms1.stack = (ms.remain, ms.cells) :: ms.stack := by
      have := setval_stack (backup ms) i c
      rw [hsv] at this
      exact this
    cases er with
    | some e =>
      simp only []
      by_cases hu : e.isUnsolvable = true
      · rw [if_pos hu]
        have hres : (msRestore ms1).stack = ms.stack :=
          msRestore_stack ms1 _ _ _ hst1
        exact stackOK_of_eq hres (ih (msRestore ms1) i)
      · rw [if_neg hu]
        intro hcontr
        exact absurd hcontr hu
    | none =>
      simp only []
      rcases hr : recur ms1 with ⟨r, ms2⟩
      have hrS := hrecS ms1
      rw [hr] at hrS
      match r with
      | .ok true =>
        have h1 : ms.stack <:+ ms1.stack := by
          rw [hst1]
          exact List.suffix_cons _ _
        exact h1.trans hrS
      | .ok false =>
        have hst2 : ms2.stack = (ms.remain, ms.cells) :: ms.stack := by
          have : ms2.stack = ms1.stack := hrS
          rw [this, hst1]
        have hres : (msRestore ms2).stack = ms.stack :=
          msRestore_stack ms2 _ _ _ hst2
        exact stackOK_of_eq hres (ih (msRestore ms2) i)
      | .error e =>
        simp only []
        by_cases hu : e.isUnsolvable = true
        · rw [if_pos hu]
          have hst2 : ms2.stack = (ms.remain, ms.cells) :: ms.stack := by
            have : ms2.stack = ms1.stack := hrS hu
            rw [this, hst1]
          have hres : (msRestore ms2).stack = ms.stack :=
            msRestore_stack ms2 _ _ _ hst2
          exact stackOK_of_eq hres (ih (msRestore ms2) i)
        · rw [if_neg hu]
          intro hcontr
          exact absurd hcontr hu

theorem solve_r_stackOK (fuel : Nat) : ∀ ms : MS, StackOK ms (solve_r fuel ms) := by
  induction fuel with
  | zero => exact fun ms _ => rfl
  | succ f ih =>
    intro ms
    unfold solve_r
    rcases hr : rulesLoop (f + 1) ms with ⟨r, ms'⟩
    have hst' : ms'.stack = ms.stack := by
      have := (rulesLoop_pres (f + 1) ms).2
      rw [hr] at this
      exact this
    match r with
    | .error e =>
      simp only []
      by_cases hu : e.isUnsolvable = true
      · rw [if_pos hu]
        exact hst'
      · rw [if_neg hu]
        exact fun _ => hst'
    | .ok u =>
      simp only []
      by_cases hrem : ms'.remain = 0
      · rw [if_pos hrem]
        show ms.stack <:+ ms'.stack
        rw [hst']
      · rw [if_neg hrem]
        rcases hf : findtry ms' with _ | i
        · exact fun _ => hst'
        · simp only []
          rcases hc : cellAt ms' i with w | l
          · exact fun _ => hst'
          · exact stackOK_of_eq hst' (tryCandsF_stackOK (solve_r f) ih l ms' i)

/-! The only Unsolvable that escapes solve_r is the candidate-exhaustion
raise (`triedAll`); every other Unsolvable is caught inside. -/

theorem tryCandsF_onlyTried (recur : MS → Except Err Bool × MS)
    (_hrec : ∀ s e s', recur s = (.error e, s') → e.isUnsolvable = true →
      e = .triedAll) (cs : List Nat) :
    ∀ (ms : MS) (i : Nat) (e : Err) (st : MS),
      tryCandsF recur ms i cs = (.error e, st) → e.isUnsolvable = true →
        e = .triedAll := by
  induction cs with
  | nil =>
    intro ms i e st h _
    have := congrArg Prod.fst h
    simp only [Prod.fst] at this
    exact (Except.error.inj this).symm
  | cons c rest ih =>
    intro ms i e st h hu
    unfold tryCandsF at h
    rcases hsv : setval (backup ms) i c with ⟨er, ms1⟩
    rw [hsv] at h
    cases er with
    | some e1 =>
      simp only [] at h
      by_cases hu1 : e1.isUnsolvable = true
      · rw [if_pos hu1] at h
        exact ih (msRestore ms1) i e st h hu
      · rw [if_neg hu1] at h
        have := congrArg Prod.fst h
        simp only [Prod.fst] at this
        have he : e1 = e := Except.error.inj this
        rw [← he] at hu
        exact absurd hu hu1
    | none =>
      simp only [] at h
      rcases hrr : recur ms1 with ⟨r, ms2⟩
      rw [hrr] at h
      match r with
      | .ok true =>
        exact absurd (congrArg Prod.fst h) (by simp)
      | .ok false =>
        exact ih (msRestore ms2) i e st h hu
      | .error e2 =>
        simp only [] at h
        by_cases hu2 : e2.isUnsolvable = true
        · rw [if_pos hu2] at h
          exact ih (msRestore ms2) i e st h hu
        · rw [if_neg hu2] at h
          have := congrArg Prod.fst h
          simp only [Prod.fst] at this
          have he : e2 = e := Except.error.inj this
          rw [← he] at hu
          exact absurd hu hu2

theorem solve_r_onlyTried (fuel : Nat) :
    ∀ (ms : MS) (e : Err) (st : MS),
      solve_r fuel ms = (.error e, st) → e.isUnsolvable = true →
        e = .triedAll := by
  induction fuel with
  | zero =>
    intro ms e st h hu
    have := congrArg Prod.fst h
    simp only [Prod.fst] at this
    have he : Err.fuel = e := Except.error.inj this
    rw [← he] at hu
    exact absurd hu (by decide)
  | succ f ih =>
    intro ms e st h hu
    unfold solve_r at h
    rcases hr : rulesLoop (f + 1) ms with ⟨r, ms'⟩
    rw [hr] at h
    match r with
    | .error e1 =>
      simp only [] at h
      by_cases hu1 : e1.isUnsolvable = true
      · rw [if_pos hu1] at h
        exact absurd (congrArg Prod.fst h) (by simp)
      · rw [if_neg hu1] at h
        have := congrArg Prod.fst h
        simp only [Prod.fst] at this
        have he : e1 = e := Except.error.inj this
        rw [← he] at hu
        exact absurd hu hu1
    | .ok u =>
      simp only [] at h
      by_cases hrem : ms'.remain = 0
      · rw [if_pos hrem] at h
        exact absurd (congrArg Prod.fst h) (by simp)
      · rw [if_neg hrem] at h
        rcases hf : findtry ms' with _ | i
        · rw [hf] at h
          simp only [] at h
          have := congrArg Prod.fst h
          simp only [Prod.fst] at this
          have he : Err.crash = e := Except.error.inj this
          rw [← he] at hu
          exact absurd hu (by decide)
        · rw [hf] at h
          simp only [] at h
          rcases hc : cellAt ms' i with w | l
          · rw [hc] at h
            simp only [] at h
            have := congrArg Prod.fst h
            simp only [Prod.fst] at this
            have he : Err.crash = e := Except.error.inj this
            rw [← he] at hu
            exact absurd hu (by decide)
          · rw [hc] at h
            simp only [] at h
            exact tryCandsF_onlyTried (solve_r f) ih l ms' i e st h hu

/-! House-index arithmetic. -/

theorem mem_rowIdxs {N r j : Nat} :
    j ∈ rowIdxs N r ↔ ∃ c, c < N ∧ j = r * N + c := by
  simp only [rowIdxs, List.mem_map, List.mem_range]
  constructor
  · rintro ⟨c, hc, rfl⟩
    exact ⟨c, hc, rfl⟩
  · rintro ⟨c, hc, rfl⟩
    exact ⟨c, hc, rfl⟩

theorem mem_colIdxs {N c j : Nat} :
    j ∈ colIdxs N c ↔ ∃ i, i < N ∧ j = c + i * N := by
  simp only [colIdxs, List.mem_map, List.mem_range]
  constructor
  · rintro ⟨i, hi, rfl⟩
    exact ⟨i, hi, rfl⟩
  · rintro ⟨i, hi, rfl⟩
    exact ⟨i, hi, rfl⟩

theorem rowcol_div {N r c : Nat} (hN : 0 < N) (hc : c < N) :
    (r * N + c) / N = r := by
  rw [Nat.mul_comm, Nat.mul_add_div hN, Nat.div_eq_of_lt hc]
  omega

theorem rowcol_mod {N r c : Nat} (hc : c < N) :
    (r * N + c) % N = c := by
  rw [Nat.mul_comm, Nat.mul_add_mod, Nat.mod_eq_of_lt hc]

theorem div_mul_add_mod (j N : Nat) : j / N * N + j % N = j := by
  rw [Nat.mul_comm]
  exact Nat.div_add_mod j N

theorem mem_rowIdxs_iff_div {N i j : Nat} (hN : 0 < N) (hj : j < N * N) :
    j ∈ rowIdxs N (i / N) ↔ j / N = i / N := by
  rw [mem_rowIdxs]
  constructor
  · rintro ⟨c, hc, rfl⟩
    exact rowcol_div hN hc
  · intro h
    refine ⟨j % N, Nat.mod_lt _ hN, ?_⟩
    rw [← h, div_mul_add_mod]

theorem mem_colIdxs_iff_mod {N i j : Nat} (hN : 0 < N) (hj : j < N * N) :
    j ∈ colIdxs N (i % N) ↔ j % N = i % N := by
  rw [mem_colIdxs]
  constructor
  · rintro ⟨k, hk, rfl⟩
    rw [Nat.add_mul_mod_self_right]
    exact Nat.mod_eq_of_lt (Nat.mod_lt _ hN)
  · intro h
    refine ⟨j / N, Nat.div_lt_of_lt_mul hj, ?_⟩
    rw [← h, Nat.add_comm, div_mul_add_mod]

theorem mem_peers_iff {N i j : Nat} (hN : 0 < N) (hj : j < N * N) :
    j ∈ peers N i ↔ sameHouse N i j ∧ j ≠ i := by
  unfold peers
  rw [List.mem_append, List.mem_filter, List.mem_filter,
    mem_rowIdxs_iff_div hN hj, mem_colIdxs_iff_mod hN hj]
  unfold sameHouse
  constructor
  · rintro (⟨h1, h2⟩ | ⟨h1, h2⟩)
    · exact ⟨Or.inl (by rw [h1]), by simpa using h2⟩
    · exact ⟨Or.inr (by rw [h1]), by simpa using h2⟩
  · rintro ⟨h1 | h1, h2⟩
    · exact Or.inl ⟨h1.symm, by simpa using h2⟩
    · exact Or.inr ⟨h1.symm, by simpa using h2⟩

theorem rowIdxs_nodup (N r : Nat) : (rowIdxs N r).Nodup := by
  unfold rowIdxs
  exact (List.nodup_range N).map (fun a b h => by omega)

theorem colIdxs_nodup (N c : Nat) (hN : 0 < N) : (colIdxs N c).Nodup := by
  unfold colIdxs
  refine (List.nodup_range N).map (fun a b h => ?_)
  have : a * N = b * N := by omega
  exact Nat.eq_of_mul_eq_mul_right hN this

theorem peers_nodup {N i : Nat} (hN : 0 < N) : (peers N i).Nodup := by
  unfold peers
  refine List.Nodup.append ((rowIdxs_nodup N _).filter _)
    ((colIdxs_nodup N _ hN).filter _) ?_
  intro j hjr hjc
  rw [List.mem_filter] at hjr hjc
  have hjne : j ≠ i := by simpa using hjr.2
  rcases mem_rowIdxs.1 hjr.1 with ⟨c, hc, rfl⟩
  rcases mem_colIdxs.1 hjc.1 with ⟨k, hk, he⟩
  have hcval : (i / N * N + c) % N = c := rowcol_mod hc
  have hcval2 : (i % N + k * N) % N = i % N := by
    rw [Nat.add_mul_mod_self_right]
    exact Nat.mod_eq_of_lt (Nat.mod_lt _ hN)
  rw [he] at hcval
  have hc_eq : c = i % N := by rw [hcval2] at hcval; exact hcval.symm
  apply hjne
  have hdm := Nat.div_add_mod i N
  calc i / N * N + c = N * (i / N) + i % N := by rw [hc_eq, Nat.mul_comm]
    _ = i := hdm

theorem colIdxs_nodup0 (N c : Nat) : (colIdxs N c).Nodup := by
  cases N with
  | zero => simp [colIdxs]
  | succ n => exact colIdxs_nodup (n + 1) c (Nat.succ_pos n)

theorem peers_nodup0 (N i : Nat) : (peers N i).Nodup := by
  cases N with
  | zero => simp [peers, rowIdxs, colIdxs]
  | succ n => exact peers_nodup (Nat.succ_pos n)

theorem self_not_mem_peers (N i : Nat) : i ∉ peers N i := by
  unfold peers
  rw [List.mem_append, List.mem_filter, List.mem_filter]
  rintro (⟨_, h⟩ | ⟨_, h⟩) <;> simp at h

theorem peers_lt {N i j : Nat} (h : j ∈ peers N i) (hi : i < N * N) :
    j < N * N := by
  unfold peers at h
  rw [List.mem_append, List.mem_filter, List.mem_filter] at h
  rcases h with ⟨h1, _⟩ | ⟨h1, _⟩
  · rcases mem_rowIdxs.1 h1 with ⟨c, hc, rfl⟩
    have hd : i / N < N := Nat.div_lt_of_lt_mul hi
    have e1 : (i / N + 1) * N = i / N * N + N := Nat.succ_mul _ _
    have e2 : (i / N + 1) * N ≤ N * N := Nat.mul_le_mul_right N hd
    omega
  · rcases mem_colIdxs.1 h1 with ⟨k, hk, rfl⟩
    have hm : i % N < N := Nat.mod_lt _ (by omega)
    have e1 : (k + 1) * N = k * N + N := Nat.succ_mul _ _
    have e2 : (k + 1) * N ≤ N * N := Nat.mul_le_mul_right N hk
    omega

/-! Pointwise specifications of the Magicsquare operations. -/

theorem cellAt0_default {cells : List CVal} {i : Nat}
    (h : cells.length ≤ i) : cellAt0 cells i = .cand [] := by
  induction cells generalizing i with
  | nil => simp [cellAt0]
  | cons hd tl ih =>
    cases i with
    | zero => simp at h
    | succ i =>
      have : tl.length ≤ i := by simpa using h
      simpa [cellAt0] using ih this

theorem xcl_cellAt (ms : MS) (i v : Nat) (k : Nat) :
    cellAt (xcl ms i v).2 k =
      if k = i then xclVal v (cellAt ms i) else cellAt ms k := by
  unfold xcl
  rcases hc : cellAt ms i with w | l
  · by_cases hk : k = i <;> simp [hk, xclVal, hc]
  · by_cases hv : v ∈ l
    · have hilt : i < ms.cells.length := by
        by_contra hge
        push_neg at hge
        rw [cellAt, cellAt0_default hge] at hc
        injection hc with h
        rw [← h] at hv
        exact absurd hv (List.not_mem_nil v)
      have hset :
          cellAt0 (ms.cells.set i (.cand (l.erase v))) k =
            if k = i then .cand (l.erase v) else cellAt ms k := by
        rw [cellAt0_set]
        by_cases hk : k = i <;> simp [hk, hilt, cellAt]
      simp only []
      rw [if_pos hv]
      by_cases he : l.erase v = []
      · rw [if_pos he]
        show cellAt0 (ms.cells.set i (.cand (l.erase v))) k = _
        rw [hset]
        by_cases hk : k = i <;> simp [hk, hc, xclVal]
      · rw [if_neg he]
        show cellAt0 (ms.cells.set i (.cand (l.erase v))) k = _
        rw [hset]
        by_cases hk : k = i <;> simp [hk, hc, xclVal]
    · have : l.erase v = l := List.erase_of_not_mem hv
      by_cases hk : k = i <;> simp [hv, hk, hc, xclVal, this]

theorem xcl_countNonFix (ms : MS) (i v : Nat) :
    countNonFix (xcl ms i v).2.cells = countNonFix ms.cells := by
  unfold xcl
  rcases hc : cellAt ms i with w | l
  · rfl
  · by_cases hv : v ∈ l
    · have hilt : i < ms.cells.length := by
        by_contra hge
        push_neg at hge
        rw [cellAt, cellAt0_default hge] at hc
        injection hc with h
        rw [← h] at hv
        exact absurd hv (List.not_mem_nil v)
      have hcp := countP_set ms.cells i (.cand (l.erase v))
        (fun c => ! isFixB c) hilt
      rw [cellAt] at hc
      rw [hc] at hcp
      have key : countNonFix (ms.cells.set i (.cand (l.erase v))) =
          countNonFix ms.cells := by
        simp only [isFixB] at hcp
        simpa [countNonFix, isFixB] using hcp
      simp only []
      rw [if_pos hv]
      by_cases he : l.erase v = []
      · rw [if_pos he]
        exact key
      · rw [if_neg he]
        exact key
    · simp [hv]

theorem xclList_cellAt (js : List Nat) (hnd : js.Nodup) :
    ∀ (ms : MS) (v : Nat) (ms' : MS), xclList ms js v = (none, ms') →
      ∀ k, cellAt ms' k =
        if k ∈ js then xclVal v (cellAt ms k) else cellAt ms k := by
  induction js with
  | nil =>
    intro ms v ms' h k
    injection h with h1 h2
    simp [← h2]
  | cons j rest ih =>
    intro ms v ms' h k
    unfold xclList at h
    rcases hx : xcl ms j v with ⟨er, ms1⟩
    rw [hx] at h
    cases er with
    | some e =>
      exact absurd (congrArg Prod.fst h) (by simp)
    | none =>
      have hnd' := hnd
      rw [List.nodup_cons] at hnd'
      have hrec := ih hnd'.2 ms1 v ms' h k
      have hpt : ∀ k2, cellAt ms1 k2 =
          if k2 = j then xclVal v (cellAt ms j) else cellAt ms k2 := by
        intro k2
        have := xcl_cellAt ms j v k2
        rw [hx] at this
        exact this
      by_cases hk1 : k ∈ rest
      · have hkj : k ≠ j := fun he => hnd'.1 (he ▸ hk1)
        rw [hrec, if_pos hk1, hpt k, if_neg hkj]
        simp [List.mem_cons, hk1]
      · by_cases hk2 : k = j
        · rw [hrec, if_neg hk1, hpt k, if_pos hk2, hk2]
          simp
        · rw [hrec, if_neg hk1, hpt k, if_neg hk2]
          simp [List.mem_cons, hk1, hk2]

theorem xclList_countNonFix (js : List Nat) :
    ∀ (ms : MS) (v : Nat),
      countNonFix (xclList ms js v).2.cells = countNonFix ms.cells := by
  induction js with
  | nil => intro ms v; rfl
  | cons j rest ih =>
    intro ms v
    unfold xclList
    rcases hx : xcl ms j v with ⟨er, ms1⟩
    have h1 : countNonFix ms1.cells = countNonFix ms.cells := by
      have := xcl_countNonFix ms j v
      rw [hx] at this
      exact this
    cases er with
    | some e => exact h1
    | none => rw [ih ms1 v, h1]

theorem xclList_remain (js : List Nat) :
    ∀ (ms : MS) (v : Nat), (xclList ms js v).2.remain = ms.remain := by
  induction js with
  | nil => intro ms v; rfl
  | cons j rest ih =>
    intro ms v
    unfold xclList
    rcases hx : xcl ms j v with ⟨er, ms1⟩
    have h1 : ms1.remain = ms.remain := by
      have := xcl_remain ms j v
      rw [hx] at this
      exact this
    cases er with
    | some e => exact h1
    | none => rw [ih ms1 v, h1]

/-- Specification of a successful real assignment (the cell held candidates
and the value was available): the cell becomes fixed, the value is removed
from every peer, remain drops by one, and the count of unsolved cells drops
by one. -/
theorem setval_ok_spec {ms : MS} {i v : Nat} {l : List Nat} {ms' : MS}
    (hc : cellAt ms i = .cand l) (hv : v ∈ l)
    (hilt : i < ms.cells.length)
    (h : setval ms i v = (none, ms')) :
    ms'.remain = ms.remain - 1 ∧
    (∀ k, cellAt ms' k =
      if k = i then .fix v
      else if k ∈ peers ms.N i then xclVal v (cellAt ms k) else cellAt ms k) ∧
    countNonFix ms.cells = countNonFix ms'.cells + 1 := by
  unfold setval at h
  rw [hc] at h
  simp only [] at h
  rw [if_pos hv] at h
  unfold cellgotval at h
  set mid : MS := { ms with cells := ms.cells.set i (.fix v) } with hmid
  have hmidAt : ∀ k, cellAt mid k = if k = i then .fix v else cellAt ms k := by
    intro k
    rw [hmid]
    show cellAt0 (ms.cells.set i (.fix v)) k = _
    rw [cellAt0_set]
    by_cases hk : k = i <;> simp [hk, hilt, cellAt]
  have hcount_mid : countNonFix ms.cells = countNonFix mid.cells + 1 := by
    have hcp := countP_set ms.cells i (.fix v) (fun c => ! isFixB c) hilt
    rw [cellAt] at hc
    rw [hc] at hcp
    simp only [isFixB, Bool.not_false, Bool.not_true] at hcp
    simpa [countNonFix, hmid] using hcp.symm
  have hmid2 : ({ mid with remain := mid.remain - 1 } : MS).cells = mid.cells := rfl
  constructor
  · have := xclList_remain (peers ms.N i) { mid with remain := mid.remain - 1 } v
    rw [h] at this
    simpa using this
  constructor
  · intro k
    have hx := xclList_cellAt (peers ms.N i) (peers_nodup0 ms.N i)
      { mid with remain := mid.remain - 1 } v ms' h k
    have hsame : ∀ k2, cellAt ({ mid with remain := mid.remain - 1 } : MS) k2 =
        cellAt mid k2 := fun k2 => rfl
    rw [hsame] at hx
    by_cases hk : k = i
    · rw [hx, hk, if_neg (self_not_mem_peers ms.N i), hmidAt, if_pos rfl]
      simp
    · by_cases hp : k ∈ peers ms.N i
      · rw [hx, if_pos hp, hmidAt, if_neg hk, if_neg hk, if_pos hp]
      · rw [hx, if_neg hp, hmidAt, if_neg hk, if_neg hk, if_neg hp]
  · have := xclList_countNonFix (peers ms.N i) { mid with remain := mid.remain - 1 } v
    rw [h] at this
    simp only at this
    rw [this]
    exact hcount_mid

/-- compatible is preserved when a candidate is erased on the left. -/
theorem compat_xcl_left {c d : CVal} (v : Nat) (h : compatible c d) :
    compatible (xclVal v c) d := by
  cases c with
  | fix a => exact h
  | cand l =>
    cases d with
    | fix b =>
      intro hmem
      exact h (List.mem_of_mem_erase hmem)
    | cand m => trivial

/-- compatible is preserved when a candidate is erased on the right. -/
theorem compat_xcl_right {c d : CVal} (v : Nat) (h : compatible c d) :
    compatible c (xclVal v d) := by
  cases d with
  | fix b => exact h
  | cand l =>
    cases c with
    | fix a =>
      intro hmem
      exact h (List.mem_of_mem_erase hmem)
    | cand m => trivial

/-- A successful setval preserves the solver invariant. -/
theorem setval_inv {ms : MS} {i v : Nat} {ms' : MS} (hInv : Inv ms)
    (hi : i < ms.N * ms.N) (h : setval ms i v = (none, ms')) : Inv ms' := by
  have hpres := setval_pres ms i v
  rw [h] at hpres
  rcases hc : cellAt ms i with w | l
  · unfold setval at h
    rw [hc] at h
    simp only [] at h
    by_cases hw : w = v
    · rw [if_pos hw] at h
      injection h with h1 h2
      rw [← h2]
      exact hInv
    · rw [if_neg hw] at h
      exact absurd (congrArg Prod.fst h) (by simp)
  · by_cases hv : v ∈ l
    · have hilt : i < ms.cells.length := by rw [hInv.hlen]; exact hi
      obtain ⟨hrem, hpt, hcnt⟩ := setval_ok_spec hc hv hilt h
      have hN0 : 0 < ms.N := hInv.hN
      have hNeq : ms'.N = ms.N := hpres.1
      refine ⟨?_, ?_, ?_, ?_, ?_⟩
      · rw [hNeq]; exact hInv.hN
      · rw [hpres.2, hNeq, hInv.hlen]
      · intro k hk
        rw [hNeq] at hk ⊢
        rw [hpt k]
        by_cases hki : k = i
        · rw [if_pos hki]
          have := hInv.hrange i hi
          rw [hc] at this
          exact this.1 v hv
        · rw [if_neg hki]
          by_cases hp : k ∈ peers ms.N i
          · rw [if_pos hp]
            have hr := hInv.hrange k hk
            rcases hck : cellAt ms k with w2 | l2
            · rw [hck] at hr; simpa [xclVal] using hr
            · rw [hck] at hr
              refine ⟨?_, ?_⟩
              · intro x hx
                exact hr.1 x (List.mem_of_mem_erase hx)
              · exact hr.2.erase v
          · rw [if_neg hp]
            exact hInv.hrange k hk
      · intro a b ha hb hab hsh
        rw [hNeq] at ha hb hsh
        rw [hpt a, hpt b]
        by_cases hai : a = i
        · rw [if_pos hai]
          have hbi : b ≠ i := fun he => hab (hai.trans he.symm)
          rw [if_neg hbi]
          have hbp : b ∈ peers ms.N i := by
            rw [mem_peers_iff hN0 hb]
            rw [hai] at hsh
            exact ⟨hsh, hbi⟩
          rw [if_pos hbp]
          rcases hcb : cellAt ms b with w2 | l2
          · have hcomp := hInv.hcons b a hb ha (fun he => hab he.symm)
              (by unfold sameHouse at hsh ⊢; tauto)
            rw [hcb, hai, hc] at hcomp
            have hvw : w2 ≠ v := fun he => hcomp (he ▸ hv)
            simpa [xclVal] using fun he => hvw he.symm
          · show v ∉ l2.erase v
            have hr := hInv.hrange b hb
            rw [hcb] at hr
            intro hmem
            exact ((hr.2.mem_erase_iff).1 hmem).1 rfl
        · rw [if_neg hai]
          by_cases hbi : b = i
          · rw [if_pos hbi]
            have hap : a ∈ peers ms.N i := by
              rw [mem_peers_iff hN0 ha]
              rw [hbi] at hsh
              exact ⟨(by unfold sameHouse at hsh ⊢; tauto), hai⟩
            rw [if_pos hap]
            rcases hca : cellAt ms a with w2 | l2
            · have hcomp := hInv.hcons a b ha hb hab hsh
              rw [hca, hbi, hc] at hcomp
              have hvw : w2 ≠ v := fun he => hcomp (he ▸ hv)
              simpa [xclVal] using hvw
            · show v ∉ l2.erase v
              have hr := hInv.hrange a ha
              rw [hca] at hr
              intro hmem
              exact ((hr.2.mem_erase_iff).1 hmem).1 rfl
          · rw [if_neg hbi]
            have hcomp := hInv.hcons a b ha hb hab hsh
            by_cases hap : a ∈ peers ms.N i <;> by_cases hbp : b ∈ peers ms.N i <;>
              simp only [hap, hbp, if_pos, if_neg, if_true, if_false]
            · exact compat_xcl_right v (compat_xcl_left v hcomp)
            · exact compat_xcl_left v hcomp
            · exact compat_xcl_right v hcomp
            · exact hcomp
      · rw [hrem, hInv.hremain, hcnt]
        omega
    · unfold setval at h
      rw [hc] at h
      simp only [] at h
      rw [if_neg hv] at h
      exact absurd (congrArg Prod.fst h) (by simp)

/-! Rule-level invariant preservation. -/

theorem backup_inv {ms : MS} (h : Inv ms) : Inv (backup ms) :=
  ⟨h.hN, h.hlen, h.hrange, h.hcons, h.hremain⟩

theorem firstSingle_spec :
    ∀ (cs : List CVal) (k i : Nat) (l : List Nat),
      firstSingle cs k = some (i, l) →
      ∃ d, i = k + d ∧ d < cs.length ∧ cellAt0 cs d = .cand l ∧
        l.length ≤ 1 := by
  intro cs
  induction cs with
  | nil => intro k i l h; exact absurd h (by simp [firstSingle])
  | cons hd tl ih =>
    intro k i l h
    cases hd with
    | fix w =>
      unfold firstSingle at h
      rcases ih (k + 1) i l h with ⟨d, h1, h2, h3, h4⟩
      exact ⟨d + 1, by omega, by simpa using h2, by simpa [cellAt0] using h3, h4⟩
    | cand l0 =>
      unfold firstSingle at h
      by_cases hl : l0.length ≤ 1
      · rw [if_pos hl] at h
        injection h with h1
        injection h1 with h2 h3
        exact ⟨0, by omega, by simp, by simp [cellAt0, h3], h3 ▸ hl⟩
      · rw [if_neg hl] at h
        rcases ih (k + 1) i l h with ⟨d, h1, h2, h3, h4⟩
        exact ⟨d + 1, by omega, by simpa using h2, by simpa [cellAt0] using h3, h4⟩

theorem rule_singlecandidate_inv {ms : MS} (hInv : Inv ms) :
    ∀ b ms', rule_singlecandidate ms = (.ok b, ms') →
      Inv ms' ∧ (b = false → ms' = ms) := by
  intro b ms' h
  unfold rule_singlecandidate at h
  rcases hf : firstSingle ms.cells 0 with _ | ⟨i, l⟩
  · rw [hf] at h
    injection h with h1 h2
    injection h1 with h1
    exact ⟨h2 ▸ hInv, fun _ => h2.symm⟩
  · rw [hf] at h
    cases l with
    | nil => exact absurd (congrArg Prod.fst h) (by simp)
    | cons x xs =>
      simp only [] at h
      rcases hsv : setval ms i x with ⟨er, ms1⟩
      rw [hsv] at h
      cases er with
      | none =>
        injection h with h1 h2
        injection h1 with h1
        rcases firstSingle_spec ms.cells 0 i (x :: xs) hf with ⟨d, hd1, hd2, _, _⟩
        have hi : i < ms.N * ms.N := by
          rw [← hInv.hlen]; omega
        exact ⟨h2 ▸ setval_inv hInv hi hsv, fun hb => absurd h1.symm (by simp [hb])⟩
      | some e => exact absurd (congrArg Prod.fst h) (by simp)

theorem scanH_mem (cells : List CVal) (x : Nat) :
    ∀ (hs : List Nat) (acc : Option Nat) (found f : Bool) (i : Nat),
      scanH cells x hs acc found = (f, some i) → i ∈ hs ∨ acc = some i := by
  intro hs
  induction hs with
  | nil =>
    intro acc found f i h
    injection h with h1 h2
    exact Or.inr h2
  | cons j rest ih =>
    intro acc found f i h
    unfold scanH at h
    rcases hcj : cellAt0 cells j with w | l
    · rw [hcj] at h
      simp only [] at h
      by_cases hw : w = x
      · rw [if_pos hw] at h
        injection h with h1 h2
        exact Or.inr h2
      · rw [if_neg hw] at h
        rcases ih acc found f i h with h3 | h3
        · exact Or.inl (List.mem_cons_of_mem j h3)
        · exact Or.inr h3
    · rw [hcj] at h
      simp only [] at h
      by_cases hx : x ∈ l
      · rw [if_pos hx] at h
        cases acc with
        | none =>
          rcases ih (some j) true f i h with h3 | h3
          · exact Or.inl (List.mem_cons_of_mem j h3)
          · injection h3 with h3
            exact Or.inl (h3 ▸ List.mem_cons_self j rest)
        | some a =>
          simp only [] at h
          injection h with h1 h2
          exact absurd h2 (by simp)
      · rw [if_neg hx] at h
        rcases ih acc found f i h with h3 | h3
        · exact Or.inl (List.mem_cons_of_mem j h3)
        · exact Or.inr h3

theorem singlepos_house_assign {cells : List CVal} {x : Nat}
    {house : List Nat} {i : Nat}
    (h : singlepos_house cells x house = .assign i) : i ∈ house := by
  unfold singlepos_house at h
  rcases hs : scanH cells x house none false with ⟨f, acc⟩
  rw [hs] at h
  cases f with
  | false => exact absurd h (by simp)
  | true =>
    cases acc with
    | none => exact absurd h (by simp)
    | some j =>
      simp only [] at h
      injection h with h1
      rcases scanH_mem cells x house none false true j hs with h2 | h2
      · exact h1 ▸ h2
      · exact absurd h2 (by simp)

theorem allHouses_mem_lt {N : Nat} {hs : List Nat}
    (h : hs ∈ allHouses N) {j : Nat} (hj : j ∈ hs) : j < N * N := by
  unfold allHouses at h
  rw [List.mem_append, List.mem_map, List.mem_map] at h
  rcases h with ⟨r, hr, rfl⟩ | ⟨c, hc, rfl⟩
  · rw [List.mem_range] at hr
    rcases mem_rowIdxs.1 hj with ⟨c2, hc2, rfl⟩
    have e1 : (r + 1) * N = r * N + N := Nat.succ_mul _ _
    have e2 : (r + 1) * N ≤ N * N := Nat.mul_le_mul_right N hr
    omega
  · rw [List.mem_range] at hc
    rcases mem_colIdxs.1 hj with ⟨k, hk, rfl⟩
    have e1 : (k + 1) * N = k * N + N := Nat.succ_mul _ _
    have e2 : (k + 1) * N ≤ N * N := Nat.mul_le_mul_right N hk
    have e3 : c < N := hc
    omega

theorem try_singlepos_houses_inv {ms : MS} (hInv : Inv ms) (x : Nat) :
    ∀ (hss : List (List Nat)),
      (∀ h ∈ hss, ∀ j ∈ h, j < ms.N * ms.N) →
      ∀ b ms', try_singlepos_houses ms x hss = (.ok b, ms') →
        Inv ms' ∧ (b = false → ms' = ms) := by
  intro hss
  induction hss with
  | nil =>
    intro hb b ms' h
    injection h with h1 h2
    injection h1 with h1
    exact ⟨h2 ▸ hInv, fun _ => h2.symm⟩
  | cons hh rest ih =>
    intro hb b ms' h
    unfold try_singlepos_houses at h
    rcases hsp : singlepos_house ms.cells x hh with _ | _ | i
    · rw [hsp] at h
      exact ih (fun h2 hm => hb h2 (List.mem_cons_of_mem hh hm)) b ms' h
    · rw [hsp] at h
      exact absurd (congrArg Prod.fst h) (by simp)
    · rw [hsp] at h
      simp only [] at h
      rcases hsv : setval ms i x with ⟨er, ms1⟩
      rw [hsv] at h
      cases er with
      | none =>
        injection h with h1 h2
        injection h1 with h1
        have hi : i < ms.N * ms.N :=
          hb hh (List.mem_cons_self hh rest) i (singlepos_house_assign hsp)
        exact ⟨h2 ▸ setval_inv hInv hi hsv,
          fun hbf => absurd h1.symm (by simp [hbf])⟩
      | some e => exact absurd (congrArg Prod.fst h) (by simp)

theorem rule_singlepos_aux_inv :
    ∀ (xs : List Nat) (ms : MS), Inv ms →
      ∀ b ms', rule_singlepos_aux ms xs = (.ok b, ms') →
        Inv ms' ∧ (b = false → ms' = ms) := by
  intro xs
  induction xs with
  | nil =>
    intro ms hInv b ms' h
    injection h with h1 h2
    injection h1 with h1
    exact ⟨h2 ▸ hInv, fun _ => h2.symm⟩
  | cons x rest ih =>
    intro ms hInv b ms' h
    unfold rule_singlepos_aux try_singlepos_x at h
    rcases ht : try_singlepos_houses ms x (allHouses ms.N) with ⟨r, msA⟩
    rw [ht] at h
    match r with
    | .ok true =>
      injection h with h1 h2
      injection h1 with h1
      have := try_singlepos_houses_inv hInv x (allHouses ms.N)
        (fun hh hm j hj => allHouses_mem_lt hm hj) true msA ht
      exact ⟨h2 ▸ this.1, fun hbf => absurd h1.symm (by simp [hbf])⟩
    | .ok false =>
      have hA := try_singlepos_houses_inv hInv x (allHouses ms.N)
        (fun hh hm j hj => allHouses_mem_lt hm hj) false msA ht
      have hAeq : msA = ms := hA.2 rfl
      rcases ih msA (hAeq ▸ hInv) b ms' h with ⟨h3, h4⟩
      exact ⟨h3, fun hbf => (h4 hbf).trans hAeq⟩
    | .error e => exact absurd (congrArg Prod.fst h) (by simp)

theorem apply_rules_inv {ms : MS} (hInv : Inv ms) :
    ∀ b ms', apply_rules ms = (.ok b, ms') →
      Inv ms' ∧ (b = false → ms' = ms) := by
  intro b ms' h
  unfold apply_rules at h
  rcases hr : rule_singlecandidate ms with ⟨r, ms1⟩
  rw [hr] at h
  match r with
  | .ok true =>
    injection h with h1 h2
    injection h1 with h1
    have := rule_singlecandidate_inv hInv true ms1 hr
    exact ⟨h2 ▸ this.1, fun hbf => absurd h1.symm (by simp [hbf])⟩
  | .ok false =>
    have h1 := rule_singlecandidate_inv hInv false ms1 hr
    have h1eq : ms1 = ms := h1.2 rfl
    unfold rule_singlepos at h
    rcases rule_singlepos_aux_inv _ ms1 (h1eq ▸ hInv) b ms' h with ⟨h3, h4⟩
    exact ⟨h3, fun hbf => (h4 hbf).trans h1eq⟩
  | .error e => exact absurd (congrArg Prod.fst h) (by simp)

theorem rulesLoop_inv :
    ∀ (f : Nat) (ms : MS), Inv ms →
      ∀ u ms', rulesLoop f ms = (.ok u, ms') → Inv ms' := by
  intro f
  induction f with
  | zero =>
    intro ms hInv u ms' h
    exact absurd (congrArg Prod.fst h) (by simp [rulesLoop])
  | succ f ih =>
    intro ms hInv u ms' h
    unfold rulesLoop at h
    rcases hr : apply_rules ms with ⟨r, ms1⟩
    rw [hr] at h
    match r with
    | .error e => exact absurd (congrArg Prod.fst h) (by simp)
    | .ok false =>
      injection h with h1 h2
      exact h2 ▸ (apply_rules_inv hInv false ms1 hr).1
    | .ok true =>
      simp only [] at h
      by_cases hrem : ms1.remain > 0
      · rw [if_pos hrem] at h
        exact ih ms1 (apply_rules_inv hInv true ms1 hr).1 u ms' h
      · rw [if_neg hrem] at h
        injection h with h1 h2
        exact h2 ▸ (apply_rules_inv hInv true ms1 hr).1

/-! findtry returns an unsolved cell whenever one exists. -/

theorem ftAux_none :
    ∀ (cs : List CVal) (k : Nat) (best : Option (Nat × Nat)),
      ftAux cs k best = none → best = none ∧ ∀ c ∈ cs, isFixB c := by
  intro cs
  induction cs with
  | nil =>
    intro k best h
    cases best with
    | none => exact ⟨rfl, by simp⟩
    | some b => exact absurd h (by simp [ftAux])
  | cons hd tl ih =>
    intro k best h
    cases hd with
    | fix w =>
      unfold ftAux at h
      rcases ih (k + 1) best h with ⟨h1, h2⟩
      refine ⟨h1, ?_⟩
      intro c hc
      rcases List.mem_cons.1 hc with rfl | hc
      · rfl
      · exact h2 c hc
    | cand l =>
      unfold ftAux at h
      by_cases hl : l.length = 2
      · rw [if_pos hl] at h
        exact absurd h (by simp)
      · rw [if_neg hl] at h
        cases best with
        | none =>
          rcases ih (k + 1) _ h with ⟨h1, _⟩
          exact absurd h1 (by simp)
        | some b =>
          rcases b with ⟨bi, bl⟩
          simp only [] at h
          by_cases hlt : l.length < bl
          · rw [if_pos hlt] at h
            rcases ih (k + 1) _ h with ⟨h1, _⟩
            exact absurd h1 (by simp)
          · rw [if_neg hlt] at h
            rcases ih (k + 1) _ h with ⟨h1, _⟩
            exact absurd h1 (by simp)

theorem ftAux_result :
    ∀ (cs : List CVal) (k : Nat) (best : Option (Nat × Nat)) (i : Nat),
      ftAux cs k best = some i →
        (∃ bl, best = some (i, bl)) ∨
        (∃ d, i = k + d ∧ d < cs.length ∧ ∃ l2, cellAt0 cs d = .cand l2) := by
  intro cs
  induction cs with
  | nil =>
    intro k best i h
    cases best with
    | none => exact absurd h (by simp [ftAux])
    | some b =>
      rcases b with ⟨bi, bl⟩
      simp only [ftAux, Option.map] at h
      injection h with h1
      exact Or.inl ⟨bl, by rw [h1]⟩
  | cons hd tl ih =>
    intro k best i h
    cases hd with
    | fix w =>
      unfold ftAux at h
      rcases ih (k + 1) best i h with h1 | ⟨d, h1, h2, l2, h3⟩
      · exact Or.inl h1
      · exact Or.inr ⟨d + 1, by omega, by simpa using h2, l2,
          by simpa [cellAt0] using h3⟩
    | cand l =>
      unfold ftAux at h
      by_cases hl : l.length = 2
      · rw [if_pos hl] at h
        injection h with h1
        exact Or.inr ⟨0, by omega, by simp, l, by simp [cellAt0]⟩
      · rw [if_neg hl] at h
        cases best with
        | none =>
          rcases ih (k + 1) _ i h with ⟨bl, h1⟩ | ⟨d, h1, h2, l2, h3⟩
          · injection h1 with h1
            injection h1 with h1a h1b
            exact Or.inr ⟨0, by omega, by simp, l, by simp [cellAt0]⟩
          · exact Or.inr ⟨d + 1, by omega, by simpa using h2, l2,
              by simpa [cellAt0] using h3⟩
        | some b =>
          rcases b with ⟨bi, bl⟩
          simp only [] at h
          by_cases hlt : l.length < bl
          · rw [if_pos hlt] at h
            rcases ih (k + 1) _ i h with ⟨bl2, h1⟩ | ⟨d, h1, h2, l2, h3⟩
            · injection h1 with h1
              injection h1 with h1a h1b
              exact Or.inr ⟨0, by omega, by simp, l, by simp [cellAt0]⟩
            · exact Or.inr ⟨d + 1, by omega, by simpa using h2, l2,
                by simpa [cellAt0] using h3⟩
          · rw [if_neg hlt] at h
            rcases ih (k + 1) _ i h with ⟨bl2, h1⟩ | ⟨d, h1, h2, l2, h3⟩
            · injection h1 with h1
              injection h1 with h1a h1b
              exact Or.inl ⟨bl, by rw [h1a]⟩
            · exact Or.inr ⟨d + 1, by omega, by simpa using h2, l2,
                by simpa [cellAt0] using h3⟩

theorem findtryCells_spec {cells : List CVal} {i : Nat}
    (h : findtryCells cells = some i) :
    i < cells.length ∧ ∃ l, cellAt0 cells i = .cand l := by
  rcases ftAux_result cells 0 none i h with ⟨bl, h1⟩ | ⟨d, h1, h2, l2, h3⟩
  · exact absurd h1 (by simp)
  · exact ⟨by omega, l2, by rw [h1]; simpa using h3⟩

theorem findtry_some {ms : MS} (hInv : Inv ms) (hrem : ms.remain ≠ 0) :
    ∃ i, findtry ms = some i := by
  rcases hft : findtryCells ms.cells with _ | i
  · exfalso
    rcases ftAux_none ms.cells 0 none hft with ⟨_, hall⟩
    have : countNonFix ms.cells = 0 := by
      rw [countNonFix, List.countP_eq_zero]
      intro c hc
      simp [hall c hc]
    exact hrem (hInv.hremain.trans this)
  · exact ⟨i, hft⟩

/-! Soundness of the search: a True result is an invariant state with
nothing remaining. -/

theorem tryCandsF_sound (recur : MS → Except Err Bool × MS)
    (hrecP : ∀ s, Pres s (recur s).2)
    (hrecS : ∀ s, StackOK s (recur s))
    (hrecSound : ∀ s s', Inv s → recur s = (.ok true, s') →
      Inv s' ∧ s'.remain = 0)
    (cs : List Nat) :
    ∀ (ms : MS) (i : Nat) (ms' : MS), Inv ms → i < ms.N * ms.N →
      tryCandsF recur ms i cs = (.ok true, ms') →
        Inv ms' ∧ ms'.remain = 0 := by
  induction cs with
  | nil =>
    intro ms i ms' _ _ h
    exact absurd (congrArg Prod.fst h) (by simp [tryCandsF])
  | cons c rest ih =>
    intro ms i ms' hInv hi h
    unfold tryCandsF at h
    rcases hsv : setval (backup ms) i c with ⟨er, ms1⟩
    rw [hsv] at h
    have hst1 : ms1.stack = (ms.remain, ms.cells) :: ms.stack := by
      have := setval_stack (backup ms) i c
      rw [hsv] at this
      exact this
    have hp1 : Pres ms ms1 := by
      have := setval_pres (backup ms) i c
      rw [hsv] at this
      exact pres_trans (backup_pres ms) this
    cases er with
    | some e =>
      simp only [] at h
      by_cases hu : e.isUnsolvable = true
      · rw [if_pos hu] at h
        have hres : msRestore ms1 = ms := msRestore_exact ms ms1 hp1.1 hp1.2 hst1
        rw [hres] at h
        exact ih ms i ms' hInv hi h
      · rw [if_neg hu] at h
        exact absurd (congrArg Prod.fst h) (by simp)
    | none =>
      simp only [] at h
      rcases hr : recur ms1 with ⟨r, ms2⟩
      rw [hr] at h
      have hInv1 : Inv ms1 := setval_inv (backup_inv hInv) hi hsv
      match r with
      | .ok true =>
        simp only [] at h
        injection h with h1 h2
        exact h2 ▸ hrecSound ms1 ms2 hInv1 hr
      | .ok false =>
        simp only [] at h
        have hst2 : ms2.stack = ms1.stack := by
          have := hrecS ms1
          rw [hr] at this
          exact this
        have hp2 : Pres ms ms2 := by
          have := hrecP ms1
          rw [hr] at this
          exact pres_trans hp1 this
        have hres : msRestore ms2 = ms :=
          msRestore_exact ms ms2 hp2.1 hp2.2 (hst2.trans hst1)
        rw [hres] at h
        exact ih ms i ms' hInv hi h
      | .error e =>
        simp only [] at h
        by_cases hu : e.isUnsolvable = true
        · rw [if_pos hu] at h
          have hst2 : ms2.stack = ms1.stack := by
            have := hrecS ms1
            rw [hr] at this
            exact this hu
          have hp2 : Pres ms ms2 := by
            have := hrecP ms1
            rw [hr] at this
            exact pres_trans hp1 this
          have hres : msRestore ms2 = ms :=
            msRestore_exact ms ms2 hp2.1 hp2.2 (hst2.trans hst1)
          rw [hres] at h
          exact ih ms i ms' hInv hi h
        · rw [if_neg hu] at h
          exact absurd (congrArg Prod.fst h) (by simp)

theorem solve_r_sound :
    ∀ (fuel : Nat) (ms ms' : MS), Inv ms →
      solve_r fuel ms = (.ok true, ms') → Inv ms' ∧ ms'.remain = 0 := by
  intro fuel
  induction fuel with
  | zero =>
    intro ms ms' _ h
    exact absurd (congrArg Prod.fst h) (by simp [solve_r])
  | succ f ih =>
    intro ms ms' hInv h
    unfold solve_r at h
    rcases hr : rulesLoop (f + 1) ms with ⟨r, msL⟩
    rw [hr] at h
    match r with
    | .error e =>
      simp only [] at h
      by_cases hu : e.isUnsolvable = true
      · rw [if_pos hu] at h
        have := congrArg Prod.fst h
        simp only [Prod.fst] at this
        exact absurd (Except.ok.inj this) (by simp)
      · rw [if_neg hu] at h
        exact absurd (congrArg Prod.fst h) (by simp)
    | .ok u =>
      simp only [] at h
      have hInvL : Inv msL := rulesLoop_inv (f + 1) ms hInv u msL hr
      by_cases hrem : msL.remain = 0
      · rw [if_pos hrem] at h
        injection h with h1 h2
        exact ⟨h2 ▸ hInvL, h2 ▸ hrem⟩
      · rw [if_neg hrem] at h
        rcases hf : findtry msL with _ | i
        · rw [hf] at h
          exact absurd (congrArg Prod.fst h) (by simp)
        · rw [hf] at h
          simp only [] at h
          rcases hc : cellAt msL i with w | l
          · rw [hc] at h
            exact absurd (congrArg Prod.fst h) (by simp)
          · rw [hc] at h
            have hi : i < msL.N * msL.N := by
              rw [← hInvL.hlen]
              exact (findtryCells_spec hf).1
            exact tryCandsF_sound (solve_r f) (solve_r_pres f)
              (solve_r_stackOK f)
              (fun s s' hs hh => ih s s' hs hh) l msL i ms' hInvL hi h

/-! A fully solved invariant state is a Latin square. -/

theorem pairwise_strengthen {l : List Nat} {R S : Nat → Nat → Prop}
    (h : l.Pairwise R) (himp : ∀ a ∈ l, ∀ b ∈ l, R a b → S a b) :
    l.Pairwise S := by
  induction l with
  | nil => exact List.Pairwise.nil
  | cons hd tl ih =>
    rcases List.pairwise_cons.1 h with ⟨h1, h2⟩
    refine List.pairwise_cons.2 ⟨?_, ?_⟩
    · intro b hb
      exact himp hd (by simp) b (by simp [hb]) (h1 b hb)
    · exact ih h2 (fun a ha b hb => himp a (by simp [ha]) b (by simp [hb]))

theorem house_facts {N : Nat} (hN : 0 < N) {hs : List Nat}
    (h : hs ∈ allHouses N) :
    hs.length = N ∧ hs.Nodup ∧ ∀ a ∈ hs, ∀ b ∈ hs, sameHouse N a b := by
  unfold allHouses at h
  rw [List.mem_append, List.mem_map, List.mem_map] at h
  rcases h with ⟨r, hr, rfl⟩ | ⟨c, hc, rfl⟩
  · refine ⟨by simp [rowIdxs], rowIdxs_nodup N r, ?_⟩
    intro a ha b hb
    rcases mem_rowIdxs.1 ha with ⟨c1, hc1, rfl⟩
    rcases mem_rowIdxs.1 hb with ⟨c2, hc2, rfl⟩
    exact Or.inl ((rowcol_div hN hc1).trans (rowcol_div hN hc2).symm)
  · refine ⟨by simp [colIdxs], colIdxs_nodup0 N c, ?_⟩
    intro a ha b hb
    rcases mem_colIdxs.1 ha with ⟨k1, hk1, rfl⟩
    rcases mem_colIdxs.1 hb with ⟨k2, hk2, rfl⟩
    rw [List.mem_range] at hc
    refine Or.inr ?_
    have e1 : (c + k1 * N) % N = c := by
      rw [Nat.add_mul_mod_self_right]
      exact Nat.mod_eq_of_lt hc
    have e2 : (c + k2 * N) % N = c := by
      rw [Nat.add_mul_mod_self_right]
      exact Nat.mod_eq_of_lt hc
    rw [e1, e2]

theorem cellAt_mem {ms : MS} {i : Nat} (hi : i < ms.cells.length) :
    cellAt ms i ∈ ms.cells := by
  rw [cellAt, cellAt0_eq_getElem ms.cells i hi]
  exact ms.cells.getElem_mem hi

theorem solved_all_fixed {ms : MS} (hInv : Inv ms) (hrem : ms.remain = 0) :
    ∀ i, i < ms.N * ms.N → ∃ w, cellAt ms i = .fix w := by
  intro i hi
  have hcnt : countNonFix ms.cells = 0 := hInv.hremain.symm.trans hrem
  rw [countNonFix, List.countP_eq_zero] at hcnt
  have hmem2 : cellAt ms i ∈ ms.cells := cellAt_mem (by rw [hInv.hlen]; exact hi)
  have := hcnt _ hmem2
  rcases hc : cellAt ms i with w | l
  · exact ⟨w, rfl⟩
  · rw [hc] at this
    simp [isFixB] at this

theorem solved_latin {ms : MS} (hInv : Inv ms) (hrem : ms.remain = 0) :
    ∀ hs ∈ allHouses ms.N, ∀ v, 1 ≤ v → v ≤ ms.N →
      ((hs.map (fun i => cellAt ms i)).count (CVal.fix v) = 1) := by
  intro hs hmem v hv1 hv2
  obtain ⟨hlen_hs, hnodup_hs, hsame⟩ := house_facts hInv.hN hmem
  have hbound : ∀ j ∈ hs, j < ms.N * ms.N := fun j hj => allHouses_mem_lt hmem hj
  have hfix : ∀ j ∈ hs, ∃ w, cellAt ms j = .fix w ∧ 1 ≤ w ∧ w ≤ ms.N := by
    intro j hj
    rcases solved_all_fixed hInv hrem j (hbound j hj) with ⟨w, hw⟩
    have hr := hInv.hrange j (hbound j hj)
    rw [hw] at hr
    exact ⟨w, hw, hr.1, hr.2⟩
  have hLnodup : (hs.map (fun i => cellAt ms i)).Nodup := by
    rw [List.Nodup, List.pairwise_map]
    refine pairwise_strengthen hnodup_hs ?_
    intro a ha b hb hne
    rcases hfix a ha with ⟨wa, hwa, _, _⟩
    rcases hfix b hb with ⟨wb, hwb, _, _⟩
    have hcomp := hInv.hcons a b (hbound a ha) (hbound b hb) hne (hsame a ha b hb)
    rw [hwa, hwb] at hcomp ⊢
    intro hcontr
    injection hcontr with hcontr
    exact hcomp hcontr
  have hsub : ∀ cv ∈ hs.map (fun i => cellAt ms i),
      cv ∈ (List.range ms.N).map (fun w => CVal.fix (w + 1)) := by
    intro cv hcv
    rw [List.mem_map] at hcv
    rcases hcv with ⟨j, hj, rfl⟩
    rcases hfix j hj with ⟨w, hw, hw1, hw2⟩
    rw [hw, List.mem_map]
    exact ⟨w - 1, List.mem_range.2 (by omega), by congr 1; omega⟩
  have hSnodup : ((List.range ms.N).map (fun w => CVal.fix (w + 1))).Nodup := by
    refine (List.nodup_range _).map ?_
    intro a b hab
    simp only [] at hab
    injection hab with hab
    omega
  have hsubperm := hLnodup.subperm hsub
  have hperm := hsubperm.perm_of_length_le (by simp [hlen_hs])
  rw [hperm.count_eq]
  refine List.count_eq_one_of_mem hSnodup ?_
  rw [List.mem_map]
  exact ⟨v - 1, List.mem_range.2 (by omega), by congr 1; omega⟩

/-! Invariance of the initial state and of applying givens. -/

theorem cellAt0_replicate {n i : Nat} {c : CVal} (hi : i < n) :
    cellAt0 (List.replicate n c) i = c := by
  induction n generalizing i with
  | zero => omega
  | succ n ih =>
    cases i with
    | zero => simp [cellAt0, List.replicate]
    | succ i =>
      have : i < n := by omega
      simpa [cellAt0, List.replicate] using ih this

theorem initMS_inv {N : Nat} (hN : 1 ≤ N) : Inv (initMS N) := by
  refine ⟨hN, by simp [initMS, initCells], ?_, ?_, ?_⟩
  · intro i hi
    have hi2 : i < N * N := by simpa [initMS] using hi
    show inRange N (cellAt0 (initCells N) i)
    rw [initCells, cellAt0_replicate hi2]
    refine ⟨?_, ?_⟩
    · intro x hx
      rw [List.mem_map] at hx
      rcases hx with ⟨w, hw, rfl⟩
      rw [List.mem_range] at hw
      omega
    · refine (List.nodup_range _).map ?_
      intro a b hab
      simp only [] at hab
      omega
  · intro i j hi hj _ _
    have hi2 : i < N * N := by simpa [initMS] using hi
    have hj2 : j < N * N := by simpa [initMS] using hj
    show compatible (cellAt0 (initCells N) i) (cellAt0 (initCells N) j)
    rw [initCells, cellAt0_replicate hi2, cellAt0_replicate hj2]
    trivial
  · show N * N = countNonFix (initCells N)
    rw [initCells, countNonFix]
    rw [List.countP_eq_length.2 (by intro c hc; rw [List.eq_of_mem_replicate hc]; rfl)]
    simp

theorem setval_ok_lt {ms : MS} {i v : Nat} {ms' : MS}
    (h : setval ms i v = (none, ms')) :
    i < ms.cells.length ∨ ms' = ms := by
  unfold setval at h
  rcases hc : cellAt ms i with w | l
  · rw [hc] at h
    simp only [] at h
    by_cases hw : w = v
    · rw [if_pos hw] at h
      injection h with _ h2
      exact Or.inr h2.symm
    · rw [if_neg hw] at h
      exact absurd (congrArg Prod.fst h) (by simp)
  · rw [hc] at h
    simp only [] at h
    by_cases hv : v ∈ l
    · refine Or.inl ?_
      by_contra hge
      push_neg at hge
      rw [cellAt, cellAt0_default hge] at hc
      injection hc with hc
      rw [← hc] at hv
      exact absurd hv (List.not_mem_nil v)
    · rw [if_neg hv] at h
      exact absurd (congrArg Prod.fst h) (by simp)

theorem setgivens_inv :
    ∀ (gs : List (Nat × Nat × Nat)) (ms : MS), Inv ms →
      ∀ ms', setgivens ms gs = (none, ms') → Inv ms' := by
  intro gs
  induction gs with
  | nil =>
    intro ms hInv ms' h
    injection h with _ h2
    exact h2 ▸ hInv
  | cons g rest ih =>
    intro ms hInv ms' h
    rcases g with ⟨r, c, v⟩
    unfold setgivens at h
    rcases hsv : setval ms (r * ms.N + c) v with ⟨er, ms1⟩
    rw [hsv] at h
    cases er with
    | none =>
      have hInv1 : Inv ms1 := by
        rcases setval_ok_lt hsv with hlt | heq
        · exact setval_inv hInv (by rw [← hInv.hlen]; exact hlt) hsv
        · exact heq ▸ hInv
      exact ih ms1 hInv1 ms' h
    | some e => exact absurd (congrArg Prod.fst h) (by simp)

theorem setgivens_presN :
    ∀ (gs : List (Nat × Nat × Nat)) (ms : MS),
      (setgivens ms gs).2.N = ms.N := by
  intro gs
  induction gs with
  | nil => intro ms; rfl
  | cons g rest ih =>
    intro ms
    rcases g with ⟨r, c, v⟩
    unfold setgivens
    rcases hsv : setval ms (r * ms.N + c) v with ⟨er, ms1⟩
    have hN1 : ms1.N = ms.N := by
      have := (setval_pres ms (r * ms.N + c) v).1
      rw [hsv] at this
      exact this
    cases er with
    | none => rw [ih ms1, hN1]
    | some e => exact hN1

/-! Stack discipline of the Eulero solver: no operation other than
backup/restore ever touches the backtracking stack. -/

theorem setSqCells_stack (e : Eul) (p : Nat) (cs : List CVal) :
    (setSqCells e p cs).stack = e.stack := by
  unfold setSqCells
  split <;> rfl

theorem decSqRemain_stack (e : Eul) (p : Nat) :
    (decSqRemain e p).stack = e.stack := by
  unfold decSqRemain
  split <;> rfl

theorem eulXcl_stack (e : Eul) (p i v : Nat) :
    (eulXcl e p i v).2.stack = e.stack := by
  unfold eulXcl
  rcases sqCellAt e p i with w | l
  · rfl
  · simp only []
    by_cases hv : v ∈ l
    · rw [if_pos hv]
      by_cases he : l.erase v = []
      · rw [if_pos he]
        exact setSqCells_stack e p _
      · rw [if_neg he]
        exact setSqCells_stack e p _
    · rw [if_neg hv]

theorem eulXclList_stack :
    ∀ (js : List Nat) (e : Eul) (p v : Nat),
      (eulXclList e p js v).2.stack = e.stack := by
  intro js
  induction js with
  | nil => intro e p v; rfl
  | cons j rest ih =>
    intro e p v
    unfold eulXclList
    rcases hx : eulXcl e p j v with ⟨er, e1⟩
    have h1 : e1.stack = e.stack := by
      have := eulXcl_stack e p j v
      rw [hx] at this
      exact this
    cases er with
    | none => rw [ih e1 p v, h1]
    | some er => exact h1

theorem setpairZip_stack :
    ∀ (ks : List Nat) (e : Eul) (pa pb idx : Nat),
      (setpairZip e pa pb idx ks).2.stack = e.stack := by
  intro ks
  induction ks with
  | nil => intro e pa pb idx; rfl
  | cons k rest ih =>
    intro e pa pb idx
    unfold setpairZip
    by_cases hk : k = idx
    · rw [if_pos hk]
      exact ih e pa pb idx
    · rw [if_neg hk]
      rcases hs1 : (if sqCellAt e 0 k = .fix pa then eulXcl e 1 k pb
          else (none, e)) with ⟨er1, e1⟩
      have he1 : e1.stack = e.stack := by
        by_cases hc : sqCellAt e 0 k = .fix pa
        · rw [if_pos hc] at hs1
          have := eulXcl_stack e 1 k pb
          rw [hs1] at this
          exact this
        · rw [if_neg hc] at hs1
          injection hs1 with _ h2
          rw [← h2]
      cases er1 with
      | some er => exact he1
      | none =>
        simp only []
        rcases hs2 : (if sqCellAt e1 1 k = .fix pb then eulXcl e1 0 k pa
            else (none, e1)) with ⟨er2, e2⟩
        have he2 : e2.stack = e1.stack := by
          by_cases hc : sqCellAt e1 1 k = .fix pb
          · rw [if_pos hc] at hs2
            have := eulXcl_stack e1 0 k pa
            rw [hs2] at this
            exact this
          · rw [if_neg hc] at hs2
            injection hs2 with _ h2
            rw [← h2]
        cases er2 with
        | some er => exact he2.trans he1
        | none => rw [ih e2 pa pb idx, he2, he1]

theorem setpair_stack (e : Eul) (pr : Nat × Nat) (idx : Nat) :
    (setpair e pr idx).2.stack = e.stack := by
  unfold setpair
  rcases pairsGet e.pairs pr with j | l
  · simp only []
    by_cases hj : j ≠ idx
    · rw [if_pos hj]
    · rw [if_neg hj]
  · exact setpairZip_stack _ _ _ _ _

theorem eulPairChecks_stack :
    ∀ (ovs : List Nat) (e : Eul) (p i v : Nat),
      (eulPairChecks e p i v ovs).2.stack = e.stack := by
  intro ovs
  induction ovs with
  | nil => intro e p i v; rfl
  | cons ov rest ih =>
    intro e p i v
    unfold eulPairChecks
    rcases pairsGet e.pairs (if p = 0 then (v, ov) else (ov, v)) with j | l
    · rcases hx : eulXcl e (1 - p) i ov with ⟨er, e1⟩
      have h1 : e1.stack = e.stack := by
        have := eulXcl_stack e (1 - p) i ov
        rw [hx] at this
        exact this
      cases er with
      | none => rw [ih e1 p i v, h1]
      | some er => exact h1
    · exact ih e p i v

theorem eulCellgotvalTop_stack (e : Eul) (p i v : Nat) :
    (eulCellgotvalTop e p i v).2.stack = e.stack := by
  unfold eulCellgotvalTop
  rcases sqCellAt { e with remain := e.remain - 1 } (1 - p) i with w | l
  · exact setpair_stack _ _ _
  · exact eulPairChecks_stack _ _ _ _ _

theorem eulSetval_stack (e : Eul) (p i v : Nat) :
    (eulSetval e p i v).2.stack = e.stack := by
  unfold eulSetval
  rcases sqCellAt e p i with w | l
  · simp only []
    by_cases hw : w = v
    · rw [if_pos hw]
    · rw [if_neg hw]
  · simp only []
    by_cases hv : v ∈ l
    · rw [if_pos hv]
      rcases hx : eulXclList (decSqRemain (setSqCells e p ((getSq e p).set i (.fix v))) p)
          p (peers e.n i) v with ⟨er, e2⟩
      have h1 : e2.stack = e.stack := by
        have h2 := eulXclList_stack (peers e.n i)
          (decSqRemain (setSqCells e p ((getSq e p).set i (.fix v))) p) p v
        rw [hx] at h2
        rw [h2, decSqRemain_stack, setSqCells_stack]
      cases er with
      | some er => exact h1
      | none =>
        rw [eulCellgotvalTop_stack, h1]
    · rw [if_neg hv]

theorem eulRuleSingleCand_stack (e : Eul) (p : Nat) :
    (eulRuleSingleCand e p).2.stack = e.stack := by
  unfold eulRuleSingleCand
  rcases firstSingle (getSq e p) 0 with _ | ⟨i, l⟩
  · rfl
  · cases l with
    | nil => rfl
    | cons x xs =>
      simp only []
      rcases hs : eulSetval e p i x with ⟨er, e1⟩
      have h1 : e1.stack = e.stack := by
        have := eulSetval_stack e p i x
        rw [hs] at this
        exact this
      cases er <;> exact h1

theorem eulTryHouses_stack :
    ∀ (hss : List (List Nat)) (e : Eul) (p x : Nat),
      (eulTryHouses e p x hss).2.stack = e.stack := by
  intro hss
  induction hss with
  | nil => intro e p x; rfl
  | cons hh rest ih =>
    intro e p x
    unfold eulTryHouses
    rcases singlepos_house (getSq e p) x hh with _ | _ | i
    · exact ih e p x
    · rfl
    · simp only []
      rcases hs : eulSetval e p i x with ⟨er, e1⟩
      have h1 : e1.stack = e.stack := by
        have := eulSetval_stack e p i x
        rw [hs] at this
        exact this
      cases er <;> exact h1

theorem eulRuleSinglePosAux_stack :
    ∀ (xs : List Nat) (e : Eul) (p : Nat),
      (eulRuleSinglePosAux e p xs).2.stack = e.stack := by
  intro xs
  induction xs with
  | nil => intro e p; rfl
  | cons x rest ih =>
    intro e p
    unfold eulRuleSinglePosAux
    rcases ht : eulTryHouses e p x (allHouses e.n) with ⟨r, e1⟩
    have h1 : e1.stack = e.stack := by
      have := eulTryHouses_stack (allHouses e.n) e p x
      rw [ht] at this
      exact this
    match r with
    | .ok false => rw [ih e1 p, h1]
    | .ok true => exact h1
    | .error er => exact h1

theorem ruleSinglePairGo_stack :
    ∀ (ps : Pairs) (e : Eul),
      (ruleSinglePairPos.ruleSinglePairGo e ps).2.stack = e.stack := by
  intro ps
  induction ps with
  | nil => intro e; rfl
  | cons hd rest ih =>
    intro e
    rcases hd with ⟨pr, pv⟩
    cases pv with
    | loc j => exact ih e
    | locs l =>
      unfold ruleSinglePairPos.ruleSinglePairGo
      by_cases hl : l.length > 1
      · rw [if_pos hl]
        exact ih e
      · rw [if_neg hl]
        by_cases he : l = []
        · rw [if_pos he]
        · rw [if_neg he]
          rcases hc0 : sqCellAt { e with pairs := pairsSet e.pairs pr (.locs []) }
              0 (l.headD 0) with w | cl
          · try simp only []
            rcases hc1 : sqCellAt { e with pairs := pairsSet e.pairs pr (.locs []) }
                1 (l.headD 0) with w1 | cl1
            · rfl
            · try simp only []
              rcases hs : eulSetval { e with pairs := pairsSet e.pairs pr (.locs []) }
                  1 (l.headD 0) pr.2 with ⟨er, e2⟩
              have h2 : e2.stack = e.stack := by
                have := eulSetval_stack { e with pairs := pairsSet e.pairs pr (.locs []) }
                  1 (l.headD 0) pr.2
                rw [hs] at this
                exact this
              cases er <;> exact h2
          · try simp only []
            rcases hs : eulSetval { e with pairs := pairsSet e.pairs pr (.locs []) }
                0 (l.headD 0) pr.1 with ⟨er, e2⟩
            have h2 : e2.stack = e.stack := by
              have := eulSetval_stack { e with pairs := pairsSet e.pairs pr (.locs []) }
                0 (l.headD 0) pr.1
              rw [hs] at this
              exact this
            cases er with
            | some er => exact h2
            | none =>
              try simp only []
              rcases hc1 : sqCellAt e2 1 (l.headD 0) with w1 | cl1
              · exact h2
              · try simp only []
                rcases hs2 : eulSetval e2 1 (l.headD 0) pr.2 with ⟨er2, e3⟩
                have h3 : e3.stack = e2.stack := by
                  have := eulSetval_stack e2 1 (l.headD 0) pr.2
                  rw [hs2] at this
                  exact this
                cases er2 <;> exact h3.trans h2

theorem ruleSinglePairPos_stack (e : Eul) :
    (ruleSinglePairPos e).2.stack = e.stack :=
  ruleSinglePairGo_stack e.pairs e

theorem eulApplyRules_stack (e : Eul) :
    (eulApplyRules e).2.stack = e.stack := by
  unfold eulApplyRules
  rcases h1 : eulRuleSingleCand e 0 with ⟨r1, e1⟩
  have hs1 : e1.stack = e.stack := by
    have := eulRuleSingleCand_stack e 0
    rw [h1] at this
    exact this
  match r1 with
  | .ok true => exact hs1
  | .error er => exact hs1
  | .ok false =>
    simp only []
    unfold eulRuleSinglePos
    rcases h2 : eulRuleSinglePosAux e1 0 ((List.range e1.n).map (· + 1)) with ⟨r2, e2⟩
    have hs2 : e2.stack = e1.stack := by
      have := eulRuleSinglePosAux_stack ((List.range e1.n).map (· + 1)) e1 0
      rw [h2] at this
      exact this
    match r2 with
    | .ok true => exact hs2.trans hs1
    | .error er => exact hs2.trans hs1
    | .ok false =>
      simp only []
      rcases h3 : eulRuleSingleCand e2 1 with ⟨r3, e3⟩
      have hs3 : e3.stack = e2.stack := by
        have := eulRuleSingleCand_stack e2 1
        rw [h3] at this
        exact this
      match r3 with
      | .ok true => exact (hs3.trans hs2).trans hs1
      | .error er => exact (hs3.trans hs2).trans hs1
      | .ok false =>
        simp only []
        rcases h4 : eulRuleSinglePosAux e3 1 ((List.range e3.n).map (· + 1)) with ⟨r4, e4⟩
        have hs4 : e4.stack = e3.stack := by
          have := eulRuleSinglePosAux_stack ((List.range e3.n).map (· + 1)) e3 1
          rw [h4] at this
          exact this
        match r4 with
        | .ok true => exact ((hs4.trans hs3).trans hs2).trans hs1
        | .error er => exact ((hs4.trans hs3).trans hs2).trans hs1
        | .ok false =>
          simp only []
          rw [ruleSinglePairPos_stack]
          exact ((hs4.trans hs3).trans hs2).trans hs1

theorem eulRulesLoop_stack :
    ∀ (f : Nat) (e : Eul), (eulRulesLoop f e).2.stack = e.stack := by
  intro f
  induction f with
  | zero => intro e; rfl
  | succ f ih =>
    intro e
    unfold eulRulesLoop
    rcases hr : eulApplyRules e with ⟨r, e1⟩
    have h1 : e1.stack = e.stack := by
      have := eulApplyRules_stack e
      rw [hr] at this
      exact this
    match r with
    | .error er => exact h1
    | .ok false => exact h1
    | .ok true =>
      simp only []
      by_cases hrem : e1.remain > 0
      · rw [if_pos hrem]
        rw [ih e1, h1]
      · rw [if_neg hrem]
        exact h1

theorem eulStackOK_of_eq {a b : Eul} (h : b.stack = a.stack)
    {r : Except Err Bool × Eul} (hr : EulStackOK b r) : EulStackOK a r := by
  rcases r with ⟨res, st⟩
  match res with
  | .ok true =>
    have hr' : b.stack <:+ st.stack := hr
    rw [h] at hr'
    exact hr'
  | .ok false =>
    have hr' : st.stack = b.stack := hr
    rw [h] at hr'
    exact hr'
  | .error e =>
    intro hu
    have hr' : st.stack = b.stack := hr hu
    rw [h] at hr'
    exact hr'

theorem eulRestore_stack (e1 : Eul) (r : Nat) (st : EulSnap)
    (tail : List (Nat × EulSnap)) (h : e1.stack = (r, st) :: tail) :
    (eulRestore e1).stack = tail := by
  unfold eulRestore
  rw [h]

theorem eulTryCandsF_stackOK (recur : Eul → Except Err Bool × Eul)
    (hrecS : ∀ s, EulStackOK s (recur s)) (cs : List Nat) :
    ∀ (e : Eul) (p i : Nat), EulStackOK e (eulTryCandsF recur e p i cs) := by
  induction cs with
  | nil =>
    intro e p i
    exact fun _ => rfl
  | cons c rest ih =>
    intro e p i
    unfold eulTryCandsF
    rcases hsv : eulSetval (eulBackup e) p i c with ⟨er, e1⟩
    have hst1 : e1.stack = (e.remain, eulState e) :: e.stack := by
      have := eulSetval_stack (eulBackup e) p i c
      rw [hsv] at this
      exact this
    cases er with
    | some er =>
      simp only []
      by_cases hu : er.isUnsolvable = true
      · rw [if_pos hu]
        have hres : (eulRestore e1).stack = e.stack :=
          eulRestore_stack e1 _ _ _ hst1
        exact eulStackOK_of_eq hres (ih (eulRestore e1) p i)
      · rw [if_neg hu]
        intro hcontr
        exact absurd hcontr hu
    | none =>
      simp only []
      rcases hr : recur e1 with ⟨r, e2⟩
      have hrS := hrecS e1
      rw [hr] at hrS
      match r with
      | .ok true =>
        have h1 : e.stack <:+ e1.stack := by
          rw [hst1]
          exact List.suffix_cons _ _
        exact h1.trans hrS
      | .ok false =>
        have hst2 : e2.stack = (e.remain, eulState e) :: e.stack := by
          have : e2.stack = e1.stack := hrS
          rw [this, hst1]
        have hres : (eulRestore e2).stack = e.stack :=
          eulRestore_stack e2 _ _ _ hst2
        exact eulStackOK_of_eq hres (ih (eulRestore e2) p i)
      | .error er =>
        simp only []
        by_cases hu : er.isUnsolvable = true
        · rw [if_pos hu]
          have hst2 : e2.stack = (e.remain, eulState e) :: e.stack := by
            have : e2.stack = e1.stack := hrS hu
            rw [this, hst1]
          have hres : (eulRestore e2).stack = e.stack :=
            eulRestore_stack e2 _ _ _ hst2
          exact eulStackOK_of_eq hres (ih (eulRestore e2) p i)
        · rw [if_neg hu]
          intro hcontr
          exact absurd hcontr hu

theorem eulSolve_r_stackOK (fuel : Nat) :
    ∀ e : Eul, EulStackOK e (eulSolve_r fuel e) := by
  induction fuel with
  | zero => exact fun e _ => rfl
  | succ f ih =>
    intro e
    unfold eulSolve_r
    rcases hr : eulRulesLoop (f + 1) e with ⟨r, e'⟩
    have hst' : e'.stack = e.stack := by
      have := eulRulesLoop_stack (f + 1) e
      rw [hr] at this
      exact this
    match r with
    | .error er =>
      simp only []
      by_cases hu : er.isUnsolvable = true
      · rw [if_pos hu]
        exact hst'
      · rw [if_neg hu]
        exact fun _ => hst'
    | .ok u =>
      simp only []
      by_cases hrem : e'.remain = 0
      · rw [if_pos hrem]
        show e.stack <:+ e'.stack
        rw [hst']
      · rw [if_neg hrem]
        rcases hf : eulFindtry e' with _ | ⟨p, i⟩
        · exact fun _ => hst'
        · simp only []
          rcases hc : sqCellAt e' p i with w | l
          · exact fun _ => hst'
          · exact eulStackOK_of_eq hst' (eulTryCandsF_stackOK (eulSolve_r f) ih l e' p i)

theorem eulTryCandsF_onlyTried (recur : Eul → Except Err Bool × Eul)
    (_hrec : ∀ s e' s', recur s = (.error e', s') → e'.isUnsolvable = true →
      e' = .triedAll) (cs : List Nat) :
    ∀ (e : Eul) (p i : Nat) (er : Err) (st : Eul),
      eulTryCandsF recur e p i cs = (.error er, st) → er.isUnsolvable = true →
        er = .triedAll := by
  induction cs with
  | nil =>
    intro e p i er st h _
    have := congrArg Prod.fst h
    simp only [Prod.fst] at this
    exact (Except.error.inj this).symm
  | cons c rest ih =>
    intro e p i er st h hu
    unfold eulTryCandsF at h
    rcases hsv : eulSetval (eulBackup e) p i c with ⟨er1, e1⟩
    rw [hsv] at h
    cases er1 with
    | some er1 =>
      simp only [] at h
      by_cases hu1 : er1.isUnsolvable = true
      · rw [if_pos hu1] at h
        exact ih (eulRestore e1) p i er st h hu
      · rw [if_neg hu1] at h
        have := congrArg Prod.fst h
        simp only [Prod.fst] at this
        have he : er1 = er := Except.error.inj this
        rw [← he] at hu
        exact absurd hu hu1
    | none =>
      simp only [] at h
      rcases hrr : recur e1 with ⟨r, e2⟩
      rw [hrr] at h
      match r with
      | .ok true =>
        exact absurd (congrArg Prod.fst h) (by simp)
      | .ok false =>
        exact ih (eulRestore e2) p i er st h hu
      | .error er2 =>
        simp only [] at h
        by_cases hu2 : er2.isUnsolvable = true
        · rw [if_pos hu2] at h
          exact ih (eulRestore e2) p i er st h hu
        · rw [if_neg hu2] at h
          have := congrArg Prod.fst h
          simp only [Prod.fst] at this
          have he : er2 = er := Except.error.inj this
          rw [← he] at hu
          exact absurd hu hu2

theorem eulSolve_r_onlyTried (fuel : Nat) :
    ∀ (e : Eul) (er : Err) (st : Eul),
      eulSolve_r fuel e = (.error er, st) → er.isUnsolvable = true →
        er = .triedAll := by
  induction fuel with
  | zero =>
    intro e er st h hu
    have := congrArg Prod.fst h
    simp only [Prod.fst] at this
    have he : Err.fuel = er := Except.error.inj this
    rw [← he] at hu
    exact absurd hu (by decide)
  | succ f ih =>
    intro e er st h hu
    unfold eulSolve_r at h
    rcases hr : eulRulesLoop (f + 1) e with ⟨r, e'⟩
    rw [hr] at h
    match r with
    | .error er1 =>
      simp only [] at h
      by_cases hu1 : er1.isUnsolvable = true
      · rw [if_pos hu1] at h
        exact absurd (congrArg Prod.fst h) (by simp)
      · rw [if_neg hu1] at h
        have := congrArg Prod.fst h
        simp only [Prod.fst] at this
        have he : er1 = er := Except.error.inj this
        rw [← he] at hu
        exact absurd hu hu1
    | .ok u =>
      simp only [] at h
      by_cases hrem : e'.remain = 0
      · rw [if_pos hrem] at h
        exact absurd (congrArg Prod.fst h) (by simp)
      · rw [if_neg hrem] at h
        rcases hf : eulFindtry e' with _ | ⟨p, i⟩
        · rw [hf] at h
          simp only [] at h
          have := congrArg Prod.fst h
          simp only [Prod.fst] at this
          have he : Err.crash = er := Except.error.inj this
          rw [← he] at hu
          exact absurd hu (by decide)
        · rw [hf] at h
          simp only [] at h
          rcases hc : sqCellAt e' p i with w | l
          · rw [hc] at h
            simp only [] at h
            have := congrArg Prod.fst h
            simp only [Prod.fst] at this
            have he : Err.crash = er := Except.error.inj this
            rw [← he] at hu
            exact absurd hu (by decide)
          · rw [hc] at h
            simp only [] at h
            exact eulTryCandsF_onlyTried (eulSolve_r f) ih l e' p i er st h hu

/-- Restoring any state whose stack still holds the checkpoint of `a`
(regardless of how the cells, counters and pair map were mutated since, as
long as the list lengths match) yields `a` back exactly. -/
theorem eulRestore_exact (a b : Eul) (hn : b.n = a.n)
    (h0 : b.c0.length = a.c0.length) (h1 : b.c1.length = a.c1.length)
    (hst : b.stack = (a.remain, eulState a) :: a.stack) :
    eulRestore b = a := by
  unfold eulRestore
  rw [hst]
  have hc0 : restoreCells b.c0 a.c0 = a.c0 :=
    restoreCells_eq_snap _ _ (by rw [h0])
  have hc1 : restoreCells b.c1 a.c1 = a.c1 :=
    restoreCells_eq_snap _ _ (by rw [h1])
  show Eul.mk b.n (restoreCells b.c0 a.c0) (restoreCells b.c1 a.c1)
    a.r0 a.r1 a.pairs a.remain a.stack = a
  rw [hc0, hc1, hn]

/-- scanH over a house where no cell is fixed to x and none holds x as a
candidate: the accumulators pass through unchanged. -/
theorem scanH_no_holder (cells : List CVal) (x : Nat) :
    ∀ (hs : List Nat) (acc : Option Nat) (found : Bool),
      (∀ j ∈ hs, (∀ w, cellAt0 cells j = .fix w → ¬ (w = x)) ∧
        (∀ l, cellAt0 cells j = .cand l → x ∉ l)) →
      scanH cells x hs acc found = (found, acc) := by
  intro hs
  induction hs with
  | nil =>
    intro acc found _
    rfl
  | cons j rest ih =>
    intro acc found h
    unfold scanH
    rcases hcj : cellAt0 cells j with w | l
    · simp only []
      rw [if_neg ((h j (List.mem_cons_self j rest)).1 w hcj)]
      exact ih acc found (fun k hk => h k (List.mem_cons_of_mem j hk))
    · simp only []
      rw [if_neg ((h j (List.mem_cons_self j rest)).2 l hcj)]
      exact ih acc found (fun k hk => h k (List.mem_cons_of_mem j hk))

/-- scanH over a house holding a cell fixed to x while no cell has x as a
candidate: `found` becomes true and the accumulated location is kept. -/
theorem scanH_fixed (cells : List CVal) (x : Nat) :
    ∀ (hs : List Nat) (acc : Option Nat) (found : Bool),
      (∃ j ∈ hs, cellAt0 cells j = .fix x) →
      (∀ j ∈ hs, ∀ l, cellAt0 cells j = .cand l → x ∉ l) →
      scanH cells x hs acc found = (true, acc) := by
  intro hs
  induction hs with
  | nil =>
    intro acc found hex _
    rcases hex with ⟨j, hj, _⟩
    exact absurd hj (by simp)
  | cons j rest ih =>
    intro acc found hex hnc
    unfold scanH
    rcases hcj : cellAt0 cells j with w | l
    · simp only []
      by_cases hw : w = x
      · rw [if_pos hw]
      · rw [if_neg hw]
        apply ih
        · rcases hex with ⟨k, hk, hfix⟩
          rcases List.mem_cons.1 hk with rfl | hk2
          · rw [hcj] at hfix
            exact absurd (CVal.fix.inj hfix) hw
          · exact ⟨k, hk2, hfix⟩
        · exact fun k hk => hnc k (List.mem_cons_of_mem j hk)
    · simp only []
      rw [if_neg (hnc j (List.mem_cons_self j rest) l hcj)]
      apply ih
      · rcases hex with ⟨k, hk, hfix⟩
        rcases List.mem_cons.1 hk with rfl | hk2
        · rw [hcj] at hfix
          exact absurd hfix (by simp)
        · exact ⟨k, hk2, hfix⟩
      · exact fun k hk => hnc k (List.mem_cons_of_mem j hk)

/-- scanH after a first possible location was recorded, when another
possible location is still ahead and no cell is fixed to x: the scan breaks
with (true, none), so the rule skips the house. -/
theorem scanH_second_holder (cells : List CVal) (x : Nat) :
    ∀ (hs : List Nat) (a : Nat) (found : Bool),
      (∃ j ∈ hs, ∃ l, cellAt0 cells j = .cand l ∧ x ∈ l) →
      (∀ j ∈ hs, ∀ w, cellAt0 cells j = .fix w → ¬ (w = x)) →
      scanH cells x hs (some a) found = (true, none) := by
  intro hs
  induction hs with
  | nil =>
    intro a found hex _
    rcases hex with ⟨j, hj, _⟩
    exact absurd hj (by simp)
  | cons j rest ih =>
    intro a found hex hnf
    unfold scanH
    rcases hcj : cellAt0 cells j with w | l
    · simp only []
      rw [if_neg (hnf j (List.mem_cons_self j rest) w hcj)]
      apply ih
      · rcases hex with ⟨k, hk, hl⟩
        rcases List.mem_cons.1 hk with rfl | hk2
        · rcases hl with ⟨l2, hcl, _⟩
          rw [hcj] at hcl
          exact absurd hcl (by simp)
        · exact ⟨k, hk2, hl⟩
      · exact fun k hk => hnf k (List.mem_cons_of_mem j hk)
    · simp only []
      by_cases hx : x ∈ l
      · rw [if_pos hx]
      · rw [if_neg hx]
        apply ih
        · rcases hex with ⟨k, hk, hl⟩
          rcases List.mem_cons.1 hk with rfl | hk2
          · rcases hl with ⟨l2, hcl, hxl⟩
            rw [hcj] at hcl
            exact absurd ((CVal.cand.inj hcl).symm ▸ hxl) hx
          · exact ⟨k, hk2, hl⟩
        · exact fun k hk => hnf k (List.mem_cons_of_mem j hk)

/-- scanH over a duplicate-free house with no cell fixed to x and exactly
one possible location j0: the scan reports j0. -/
theorem scanH_unique_holder (cells : List CVal) (x : Nat) :
    ∀ (hs : List Nat) (found : Bool), hs.Nodup →
      (∀ j ∈ hs, ∀ w, cellAt0 cells j = .fix w → ¬ (w = x)) →
      ∀ j0, j0 ∈ hs →
      (∃ l, cellAt0 cells j0 = .cand l ∧ x ∈ l) →
      (∀ j ∈ hs, (∃ l, cellAt0 cells j = .cand l ∧ x ∈ l) → j = j0) →
      scanH cells x hs none found = (true, some j0) := by
  intro hs
  induction hs with
  | nil =>
    intro found _ _ j0 hj0 _ _
    exact absurd hj0 (by simp)
  | cons j rest ih =>
    intro found hnd hnf j0 hj0 hl0 hun
    rcases List.nodup_cons.1 hnd with ⟨hjn, hndr⟩
    unfold scanH
    rcases hcj : cellAt0 cells j with w | l
    · simp only []
      rw [if_neg (hnf j (List.mem_cons_self j rest) w hcj)]
      have hj0r : j0 ∈ rest := by
        rcases List.mem_cons.1 hj0 with rfl | h
        · rcases hl0 with ⟨l2, hcl, _⟩
          rw [hcj] at hcl
          exact absurd hcl (by simp)
        · exact h
      exact ih found hndr (fun k hk => hnf k (List.mem_cons_of_mem j hk)) j0 hj0r
        hl0 (fun k hk => hun k (List.mem_cons_of_mem j hk))
    · simp only []
      by_cases hx : x ∈ l
      · rw [if_pos hx]
        have hj0j : j = j0 := hun j (List.mem_cons_self j rest) ⟨l, hcj, hx⟩
        subst hj0j
        apply scanH_no_holder
        intro k hk
        refine ⟨fun w hw => hnf k (List.mem_cons_of_mem j hk) w hw, ?_⟩
        intro l2 hc2 hx2
        have hk0 : k = j := hun k (List.mem_cons_of_mem j hk) ⟨l2, hc2, hx2⟩
        rw [hk0] at hk
        exact hjn hk
      · rw [if_neg hx]
        have hj0r : j0 ∈ rest := by
          rcases List.mem_cons.1 hj0 with rfl | h
          · rcases hl0 with ⟨l2, hcl, hxl⟩
            rw [hcj] at hcl
            exact absurd ((CVal.cand.inj hcl).symm ▸ hxl) hx
          · exact h
        exact ih found hndr (fun k hk => hnf k (List.mem_cons_of_mem j hk)) j0 hj0r
          hl0 (fun k hk => hun k (List.mem_cons_of_mem j hk))

/-- scanH over a house with two distinct possible locations for x and no
cell fixed to x: the scan breaks at the second one with (true, none). -/
theorem scanH_two_holders (cells : List CVal) (x : Nat) :
    ∀ (hs : List Nat) (found : Bool),
      (∀ j ∈ hs, ∀ w, cellAt0 cells j = .fix w → ¬ (w = x)) →
      ∀ j1 j2, j1 ∈ hs → j2 ∈ hs → ¬ (j1 = j2) →
      (∃ l, cellAt0 cells j1 = .cand l ∧ x ∈ l) →
      (∃ l, cellAt0 cells j2 = .cand l ∧ x ∈ l) →
      scanH cells x hs none found = (true, none) := by
  intro hs
  induction hs with
  | nil =>
    intro found _ j1 j2 h1 _ _ _ _
    exact absurd h1 (by simp)
  | cons j rest ih =>
    intro found hnf j1 j2 h1 h2 hne hl1 hl2
    unfold scanH
    rcases hcj : cellAt0 cells j with w | l
    · simp only []
      rw [if_neg (hnf j (List.mem_cons_self j rest) w hcj)]
      have h1r : j1 ∈ rest := by
        rcases List.mem_cons.1 h1 with rfl | h
        · rcases hl1 with ⟨l1, hc1, _⟩
          rw [hcj] at hc1
          exact absurd hc1 (by simp)
        · exact h
      have h2r : j2 ∈ rest := by
        rcases List.mem_cons.1 h2 with rfl | h
        · rcases hl2 with ⟨l2, hc2, _⟩
          rw [hcj] at hc2
          exact absurd hc2 (by simp)
        · exact h
      exact ih found (fun k hk => hnf k (List.mem_cons_of_mem j hk)) j1 j2 h1r h2r
        hne hl1 hl2
    · simp only []
      by_cases hx : x ∈ l
      · rw [if_pos hx]
        have hex : ∃ k ∈ rest, ∃ l2, cellAt0 cells k = .cand l2 ∧ x ∈ l2 := by
          by_cases hj1 : j1 = j
          · refine ⟨j2, ?_, hl2⟩
            rcases List.mem_cons.1 h2 with heq | h
            · exact absurd (hj1.trans heq.symm) hne
            · exact h
          · refine ⟨j1, ?_, hl1⟩
            rcases List.mem_cons.1 h1 with heq | h
            · exact absurd heq hj1
            · exact h
        exact scanH_second_holder cells x rest j true hex
          (fun k hk => hnf k (List.mem_cons_of_mem j hk))
      · rw [if_neg hx]
        have h1r : j1 ∈ rest := by
          rcases List.mem_cons.1 h1 with rfl | h
          · rcases hl1 with ⟨l1, hc1, hx1⟩
            rw [hcj] at hc1
            exact absurd ((CVal.cand.inj hc1).symm ▸ hx1) hx
          · exact h
        have h2r : j2 ∈ rest := by
          rcases List.mem_cons.1 h2 with rfl | h
          · rcases hl2 with ⟨l2, hc2, hx2⟩
            rw [hcj] at hc2
            exact absurd ((CVal.cand.inj hc2).symm ▸ hx2) hx
          · exact h
        exact ih found (fun k hk => hnf k (List.mem_cons_of_mem j hk)) j1 j2 h1r h2r
          hne hl1 hl2

/-- Full characterization of the findtry scan on a cell list whose unsolved
cells all have at least two candidates (as after the rules loop): the
result is either the incoming best (then no scanned cell beats it) or a
scanned candidate cell that beats the incoming best, is minimal among all
scanned candidate cells, and is strictly smaller than every earlier one. -/
theorem ftAux_min :
    ∀ (cs : List CVal) (k : Nat) (best : Option (Nat × Nat)) (i : Nat),
      (∀ d l, d < cs.length → cellAt0 cs d = .cand l → 2 ≤ l.length) →
      (∀ bi bl, best = some (bi, bl) → 3 ≤ bl) →
      ftAux cs k best = some i →
      (∃ bl, best = some (i, bl) ∧
        ∀ d l, d < cs.length → cellAt0 cs d = .cand l → bl ≤ l.length) ∨
      (∃ d l, i = k + d ∧ d < cs.length ∧ cellAt0 cs d = .cand l ∧
        (∀ bi bl, best = some (bi, bl) → l.length < bl) ∧
        (∀ d2 l2, d2 < cs.length → cellAt0 cs d2 = .cand l2 →
          l.length ≤ l2.length) ∧
        (∀ d2 l2, d2 < d → cellAt0 cs d2 = .cand l2 →
          l.length < l2.length)) := by
  intro cs
  induction cs with
  | nil =>
    intro k best i _ _ h
    cases best with
    | none => exact absurd h (by simp [ftAux])
    | some b =>
      rcases b with ⟨bi, bl⟩
      simp only [ftAux, Option.map] at h
      injection h with h1
      left
      exact ⟨bl, by rw [h1], fun d l hd _ => absurd hd (by simp)⟩
  | cons hd tl ih =>
    intro k best i hyp hb h
    have hypt : ∀ d l, d < tl.length → cellAt0 tl d = .cand l → 2 ≤ l.length :=
      fun d l hd hc => hyp (d + 1) l (by simpa using Nat.succ_lt_succ hd) hc
    cases hd with
    | fix w =>
      unfold ftAux at h
      rcases ih (k + 1) best i hypt hb h with ⟨bl, hbest, hsuf⟩ |
        ⟨d, l, hi, hdlt, hcell, hrel, hle, hstrict⟩
      · left
        refine ⟨bl, hbest, ?_⟩
        intro d l hdl hc
        match d, hdl, hc with
        | 0, _, hc => exact absurd hc (by simp [cellAt0])
        | e + 1, hdl, hc => exact hsuf e l (by simpa using hdl) hc
      · right
        refine ⟨d + 1, l, by omega, by simpa using Nat.succ_lt_succ hdlt,
          hcell, hrel, ?_, ?_⟩
        · intro d2 l2 hd2 hc2
          match d2, hd2, hc2 with
          | 0, _, hc2 => exact absurd hc2 (by simp [cellAt0])
          | e + 1, hd2, hc2 => exact hle e l2 (by simpa using hd2) hc2
        · intro d2 l2 hd2 hc2
          match d2, hd2, hc2 with
          | 0, _, hc2 => exact absurd hc2 (by simp [cellAt0])
          | e + 1, hd2, hc2 => exact hstrict e l2 (by omega) hc2
    | cand l =>
      unfold ftAux at h
      by_cases hl2 : l.length = 2
      · rw [if_pos hl2] at h
        injection h with h1
        right
        refine ⟨0, l, by omega, by simp, rfl, ?_, ?_, ?_⟩
        · intro bi bl hbst
          have := hb bi bl hbst
          omega
        · intro d2 l2 hd2 hc2
          have := hyp d2 l2 hd2 hc2
          omega
        · intro d2 l2 hd2 _
          exact absurd hd2 (by omega)
      · rw [if_neg hl2] at h
        have hl3 : 3 ≤ l.length := by
          have := hyp 0 l (by simp) rfl
          omega
        cases best with
        | none =>
          simp only [] at h
          rcases ih (k + 1) (some (k, l.length)) i hypt
            (by
              intro bi bl hbst
              injection hbst with hb1
              injection hb1 with hba hbb
              omega) h with ⟨bl2, hbest, hsuf⟩ |
            ⟨d, l2, hi, hdlt, hcell, hrel, hle, hstrict⟩
          · obtain ⟨h1a, h1b⟩ : k = i ∧ l.length = bl2 := by
              injection hbest with hb1
              injection hb1 with hba hbb
              exact ⟨hba, hbb⟩
            right
            refine ⟨0, l, by omega, by simp, rfl, ?_, ?_, ?_⟩
            · intro bi bl3 hbst
              exact absurd hbst (by simp)
            · intro d2 l3 hd2 hc2
              match d2, hd2, hc2 with
              | 0, _, hc2 =>
                have he : l = l3 := CVal.cand.inj hc2
                rw [← he]
              | e + 1, hd2, hc2 =>
                have := hsuf e l3 (by simpa using hd2) hc2
                omega
            · intro d2 l3 hd2 _
              exact absurd hd2 (by omega)
          · right
            have hrel2 : l2.length < l.length := hrel k l.length rfl
            refine ⟨d + 1, l2, by omega, by simpa using Nat.succ_lt_succ hdlt,
              hcell, ?_, ?_, ?_⟩
            · intro bi bl3 hbst
              exact absurd hbst (by simp)
            · intro d2 l3 hd2 hc2
              match d2, hd2, hc2 with
              | 0, _, hc2 =>
                have he : l = l3 := CVal.cand.inj hc2
                rw [← he]
                omega
              | e + 1, hd2, hc2 => exact hle e l3 (by simpa using hd2) hc2
            · intro d2 l3 hd2 hc2
              match d2, hd2, hc2 with
              | 0, _, hc2 =>
                have he : l = l3 := CVal.cand.inj hc2
                rw [← he]
                omega
              | e + 1, hd2, hc2 => exact hstrict e l3 (by omega) hc2
        | some b =>
          rcases b with ⟨bi, bl⟩
          simp only [] at h
          by_cases hlt : l.length < bl
          · rw [if_pos hlt] at h
            rcases ih (k + 1) (some (k, l.length)) i hypt
              (by
                intro bi2 bl2 hbst
                injection hbst with hb1
                injection hb1 with hba hbb
                omega) h with ⟨bl2, hbest, hsuf⟩ |
              ⟨d, l2, hi, hdlt, hcell, hrel, hle, hstrict⟩
            · obtain ⟨h1a, h1b⟩ : k = i ∧ l.length = bl2 := by
                injection hbest with hb1
                injection hb1 with hba hbb
                exact ⟨hba, hbb⟩
              right
              refine ⟨0, l, by omega, by simp, rfl, ?_, ?_, ?_⟩
              · intro bi2 bl3 hbst
                injection hbst with hb1
                injection hb1 with hba hbb
                omega
              · intro d2 l3 hd2 hc2
                match d2, hd2, hc2 with
                | 0, _, hc2 =>
                  have he : l = l3 := CVal.cand.inj hc2
                  rw [← he]
                | e + 1, hd2, hc2 =>
                  have := hsuf e l3 (by simpa using hd2) hc2
                  omega
              · intro d2 l3 hd2 _
                exact absurd hd2 (by omega)
            · right
              have hrel2 : l2.length < l.length := hrel k l.length rfl
              refine ⟨d + 1, l2, by omega, by simpa using Nat.succ_lt_succ hdlt,
                hcell, ?_, ?_, ?_⟩
              · intro bi2 bl3 hbst
                injection hbst with hb1
                injection hb1 with hba hbb
                omega
              · intro d2 l3 hd2 hc2
                match d2, hd2, hc2 with
                | 0, _, hc2 =>
                  have he : l = l3 := CVal.cand.inj hc2
                  rw [← he]
                  omega
                | e + 1, hd2, hc2 => exact hle e l3 (by simpa using hd2) hc2
              · intro d2 l3 hd2 hc2
                match d2, hd2, hc2 with
                | 0, _, hc2 =>
                  have he : l = l3 := CVal.cand.inj hc2
                  rw [← he]
                  omega
                | e + 1, hd2, hc2 => exact hstrict e l3 (by omega) hc2
          · rw [if_neg hlt] at h
            rcases ih (k + 1) (some (bi, bl)) i hypt hb h with ⟨bl2, hbest, hsuf⟩ |
              ⟨d, l2, hi, hdlt, hcell, hrel, hle, hstrict⟩
            · left
              refine ⟨bl2, hbest, ?_⟩
              intro d2 l3 hd2 hc2
              match d2, hd2, hc2 with
              | 0, _, hc2 =>
                have he : l = l3 := CVal.cand.inj hc2
                have hbb2 : bl = bl2 := congrArg Prod.snd (Option.some.inj hbest)
                rw [← he]
                omega
              | e + 1, hd2, hc2 => exact hsuf e l3 (by simpa using hd2) hc2
            · right
              have hrel2 : l2.length < bl := hrel bi bl rfl
              refine ⟨d + 1, l2, by omega, by simpa using Nat.succ_lt_succ hdlt,
                hcell, ?_, ?_, ?_⟩
              · intro bi2 bl3 hbst
                injection hbst with hb1
                injection hb1 with hba hbb
                omega
              · intro d2 l3 hd2 hc2
                match d2, hd2, hc2 with
                | 0, _, hc2 =>
                  have he : l = l3 := CVal.cand.inj hc2
                  rw [← he]
                  omega
                | e + 1, hd2, hc2 => exact hle e l3 (by simpa using hd2) hc2
              · intro d2 l3 hd2 hc2
                match d2, hd2, hc2 with
                | 0, _, hc2 =>
                  have he : l = l3 := CVal.cand.inj hc2
                  rw [← he]
                  omega
                | e + 1, hd2, hc2 => exact hstrict e l3 (by omega) hc2

/-! Claim theorems. -/

/-- C1, counterexample.  The claim says solve() never raises for the
ordinary no-solution case and that exhausting every candidate of the
depth-0 pivot is reported as the None return value.  On the fresh
2 x 2 Eulero (no givens, hence no malformed input; no Graeco-Latin square
of order 2 exists), the depth-0 candidate loop exhausts both candidates of
its pivot and the `triedAll` Unsolvable escapes solve() instead of
becoming a None return: solve returns `Except.error`, not `.ok none`. -/
theorem claim_C1_counterexample :
    eulSolve 20 (initEul 2) = (.error .triedAll, initEul 2) ∧
      (Except.error Err.triedAll ≠ (Except.ok none : Except Err (Option Eul))) := by
  constructor
  · decide
  · decide

/-- C1, amended.  solve() returns the solved puzzle on success and None
when the depth-0 rule propagation refutes the puzzle, but when the depth-0
pivot exhausts all its candidates the Unsolvable raise (`triedAll`) escapes
the solve() call; that candidate-exhaustion raise is the only Unsolvable
that ever crosses the solve() boundary, for a Magicsquare as well as for an
Eulero (all other contradiction kinds are absorbed by the search). -/
theorem claim_C1_amended :
    (∀ (fuel : Nat) (ms : MS) (e : Err) (st : MS),
        msSolve fuel ms = (.error e, st) → e.isUnsolvable = true →
          e = .triedAll) ∧
    (∀ (fuel : Nat) (el : Eul) (e : Err) (st : Eul),
        eulSolve fuel el = (.error e, st) → e.isUnsolvable = true →
          e = .triedAll) := by
  constructor
  · intro fuel ms e st h hu
    unfold msSolve at h
    rcases hr : solve_r fuel ms with ⟨r, s2⟩
    rw [hr] at h
    match r with
    | .ok true => exact absurd (congrArg Prod.fst h) (by simp)
    | .ok false => exact absurd (congrArg Prod.fst h) (by simp)
    | .error e2 =>
      simp only [] at h
      have he : e2 = e := Except.error.inj (congrArg Prod.fst h)
      exact he ▸ solve_r_onlyTried fuel ms e2 s2 hr (he ▸ hu)
  · intro fuel el e st h hu
    unfold eulSolve at h
    rcases hr : eulSolve_r fuel el with ⟨r, s2⟩
    rw [hr] at h
    match r with
    | .ok true => exact absurd (congrArg Prod.fst h) (by simp)
    | .ok false => exact absurd (congrArg Prod.fst h) (by simp)
    | .error e2 =>
      simp only [] at h
      have he : e2 = e := Except.error.inj (congrArg Prod.fst h)
      exact he ▸ eulSolve_r_onlyTried fuel el e2 s2 hr (he ▸ hu)

/-- Witness for C1: the amended theorem applied to the concrete escaping
run on the fresh 2 x 2 Eulero. -/
theorem claim_C1_witness :
    eulSolve 20 (initEul 2) = (.error Err.triedAll, initEul 2) ∧
      Err.triedAll = Err.triedAll :=
  ⟨by decide,
    claim_C1_amended.2 20 (initEul 2) .triedAll (initEul 2) (by decide) (by decide)⟩

/-- C3: soundness of the Magicsquare solver.  For every size N >= 1 and
every sequence of givens accepted without contradiction, if solve()
returns a solved puzzle then nothing remains and every house (each row and
each column) contains each value 1..N exactly once. -/
theorem claim_C3_solver_sound :
    ∀ (N fuel : Nat) (gs : List (Nat × Nat × Nat)) (ms1 ms2 st : MS),
      1 ≤ N →
      setgivens (initMS N) gs = (none, ms1) →
      msSolve fuel ms1 = (.ok (some ms2), st) →
      ms2.remain = 0 ∧
      ∀ hs ∈ allHouses N, ∀ v, 1 ≤ v → v ≤ N →
        ((hs.map (fun i => cellAt ms2 i)).count (CVal.fix v) = 1) := by
  intro N fuel gs ms1 ms2 st hN hg hs
  have hInv1 : Inv ms1 := setgivens_inv gs (initMS N) (initMS_inv hN) ms1 hg
  have hN1 : ms1.N = N := by
    have := setgivens_presN gs (initMS N)
    rw [hg] at this
    exact this
  unfold msSolve at hs
  rcases hr : solve_r fuel ms1 with ⟨r, msr⟩
  rw [hr] at hs
  match r with
  | .ok false => exact absurd (congrArg Prod.fst hs) (by simp)
  | .error e => exact absurd (congrArg Prod.fst hs) (by simp)
  | .ok true =>
    simp only [] at hs
    have hms2 : msr = ms2 := by
      have := congrArg Prod.fst hs
      simp only [Prod.fst] at this
      exact Option.some.inj (Except.ok.inj this)
    rcases solve_r_sound fuel ms1 msr hInv1 hr with ⟨hInv2, hrem⟩
    have hNr : msr.N = N := by
      have hp := (solve_r_pres fuel ms1).1
      rw [hr] at hp
      exact hp.trans hN1
    refine ⟨hms2 ▸ hrem, ?_⟩
    intro hse hmem v hv1 hv2
    have := solved_latin hInv2 hrem hse (by rw [hNr]; exact hmem) v hv1
      (by rw [hNr]; exact hv2)
    exact hms2 ▸ this

/-- Witness for C3: the concrete 2 x 2 Magicsquare with no givens is solved
by the embedded solver, and the theorem yields the exactly-once property of
its first row. -/
theorem claim_C3_witness :
    (msSolve 20 (initMS 2)).2.remain = 0 ∧
      (((rowIdxs 2 0).map (fun i => cellAt (msSolve 20 (initMS 2)).2 i)).count
        (CVal.fix 1) = 1) := by
  have h := claim_C3_solver_sound 2 20 [] (initMS 2) ((msSolve 20 (initMS 2)).2)
    ((msSolve 20 (initMS 2)).2) (by decide) (by decide) (by decide)
  exact ⟨h.1, h.2 (rowIdxs 2 0) (by decide) 1 (by decide) (by decide)⟩

/-- C4, counterexample.  The claim says that after solve() returns success
the backtracking stack holds no leaked checkpoints.  On the fresh 3 x 3
Eulero the solver succeeds after speculative assignments, and the
checkpoints of the winning branch remain on the stack (one per speculative
level), so the final stack is not empty. -/
theorem claim_C4_counterexample :
    (eulSolve 40 (initEul 3)).1 = .ok (some (eulSolve 40 (initEul 3)).2) ∧
      (eulSolve 40 (initEul 3)).2.stack ≠ [] := by
  constructor
  · decide
  · decide

/-- C4, amended.  Every speculative assignment pushes exactly one
checkpoint; a branch that fails (a False result or an Unsolvable raise)
pops exactly its own checkpoints back off in strict stack order, leaving
the stack exactly as at entry; a successful branch does not restore, so the
entry stack survives as a suffix below the retained checkpoints of the
winning branch (they are leaked on purpose: the final state is wanted).
This holds for the shared engine on both puzzle kinds. -/
theorem claim_C4_amended :
    (∀ (fuel : Nat) (ms ms' : MS) (e : Err),
      (solve_r fuel ms = (.ok false, ms') → ms'.stack = ms.stack) ∧
      (solve_r fuel ms = (.error e, ms') → e.isUnsolvable = true →
        ms'.stack = ms.stack) ∧
      (solve_r fuel ms = (.ok true, ms') → ms.stack <:+ ms'.stack)) ∧
    (∀ (fuel : Nat) (el el' : Eul) (e : Err),
      (eulSolve_r fuel el = (.ok false, el') → el'.stack = el.stack) ∧
      (eulSolve_r fuel el = (.error e, el') → e.isUnsolvable = true →
        el'.stack = el.stack) ∧
      (eulSolve_r fuel el = (.ok true, el') → el.stack <:+ el'.stack)) := by
  constructor
  · intro fuel ms ms' e
    refine ⟨?_, ?_, ?_⟩
    · intro h
      have := solve_r_stackOK fuel ms
      rw [h] at this
      exact this
    · intro h hu
      have := solve_r_stackOK fuel ms
      rw [h] at this
      exact this hu
    · intro h
      have := solve_r_stackOK fuel ms
      rw [h] at this
      exact this
  · intro fuel el el' e
    refine ⟨?_, ?_, ?_⟩
    · intro h
      have := eulSolve_r_stackOK fuel el
      rw [h] at this
      exact this
    · intro h hu
      have := eulSolve_r_stackOK fuel el
      rw [h] at this
      exact this hu
    · intro h
      have := eulSolve_r_stackOK fuel el
      rw [h] at this
      exact this

/-- Witness for C4: the amended theorem applied to a concrete solved
1 x 1 Magicsquare run (success without guessing leaves the empty entry
stack as a suffix of the final stack). -/
theorem claim_C4_witness :
    (initMS 1).stack <:+ (solve_r 2 (initMS 1)).2.stack :=
  (claim_C4_amended.1 2 (initMS 1) ((solve_r 2 (initMS 1)).2) Err.crash).2.2
    (by decide)

/-- C5: the four-way behaviour of NCell.setval.  Re-assigning the value a
cell is already fixed to is a no-op with no failure; assigning a different
value to a fixed cell fails with `alreadyFixed` and changes nothing;
assigning a value not among the current candidates fails with
`valueUnavailable` and changes nothing; otherwise the cell transitions to
fixed and the grid is signalled: `remain` drops by one and the value is
excluded from every peer (shown for the run where the signalling raises no
contradiction). -/
theorem claim_C5_setval_cases :
    ∀ (ms : MS) (i v w : Nat) (l : List Nat) (ms' : MS),
      (cellAt ms i = .fix v → setval ms i v = (none, ms)) ∧
      (cellAt ms i = .fix w → w ≠ v →
        setval ms i v = (some .alreadyFixed, ms)) ∧
      (cellAt ms i = .cand l → v ∉ l →
        setval ms i v = (some .valueUnavailable, ms)) ∧
      (cellAt ms i = .cand l → v ∈ l → i < ms.cells.length →
        setval ms i v = (none, ms') →
        cellAt ms' i = .fix v ∧ ms'.remain = ms.remain - 1 ∧
        ∀ k, k ∈ peers ms.N i → cellAt ms' k = xclVal v (cellAt ms k)) := by
  intro ms i v w l ms'
  refine ⟨?_, ?_, ?_, ?_⟩
  · intro h
    unfold setval
    rw [h]
    simp
  · intro h hw
    unfold setval
    rw [h]
    simp only []
    rw [if_neg hw]
  · intro h hv
    unfold setval
    rw [h]
    simp only []
    rw [if_neg hv]
  · intro h hv hlt hok
    obtain ⟨h1, h2, _⟩ := setval_ok_spec h hv hlt hok
    refine ⟨?_, h1, ?_⟩
    · rw [h2 i, if_pos rfl]
    · intro k hk
      have hki : ¬ (k = i) := fun he => self_not_mem_peers ms.N i (he ▸ hk)
      rw [h2 k, if_neg hki, if_pos hk]

/-- Witness for C5: all four cases of the theorem at concrete cells of a
2 x 2 grid with one fixed cell. -/
theorem claim_C5_witness :
    (setval ⟨2, [.fix 1, .cand [1, 2], .cand [1, 2], .cand [1, 2]], 3, []⟩ 0 1 =
      (none, ⟨2, [.fix 1, .cand [1, 2], .cand [1, 2], .cand [1, 2]], 3, []⟩)) ∧
    (setval ⟨2, [.fix 1, .cand [1, 2], .cand [1, 2], .cand [1, 2]], 3, []⟩ 0 2 =
      (some Err.alreadyFixed,
        ⟨2, [.fix 1, .cand [1, 2], .cand [1, 2], .cand [1, 2]], 3, []⟩)) ∧
    (setval ⟨2, [.fix 1, .cand [1, 2], .cand [1, 2], .cand [1, 2]], 3, []⟩ 1 3 =
      (some Err.valueUnavailable,
        ⟨2, [.fix 1, .cand [1, 2], .cand [1, 2], .cand [1, 2]], 3, []⟩)) ∧
    (cellAt (setval ⟨2, [.fix 1, .cand [1, 2], .cand [1, 2], .cand [1, 2]], 3, []⟩ 1 2).2 1 =
      CVal.fix 2 ∧
     (setval ⟨2, [.fix 1, .cand [1, 2], .cand [1, 2], .cand [1, 2]], 3, []⟩ 1 2).2.remain = 3 - 1) := by
  refine ⟨?_, ?_, ?_, ?_⟩
  · exact (claim_C5_setval_cases
      ⟨2, [.fix 1, .cand [1, 2], .cand [1, 2], .cand [1, 2]], 3, []⟩ 0 1 1 []
      ⟨2, [.fix 1, .cand [1, 2], .cand [1, 2], .cand [1, 2]], 3, []⟩).1
      (by decide)
  · exact (claim_C5_setval_cases
      ⟨2, [.fix 1, .cand [1, 2], .cand [1, 2], .cand [1, 2]], 3, []⟩ 0 2 1 []
      ⟨2, [.fix 1, .cand [1, 2], .cand [1, 2], .cand [1, 2]], 3, []⟩).2.1
      (by decide) (by decide)
  · exact (claim_C5_setval_cases
      ⟨2, [.fix 1, .cand [1, 2], .cand [1, 2], .cand [1, 2]], 3, []⟩ 1 3 1
      [1, 2] ⟨2, [.fix 1, .cand [1, 2], .cand [1, 2], .cand [1, 2]], 3, []⟩).2.2.1
      (by decide) (by decide)
  · have h := (claim_C5_setval_cases
      ⟨2, [.fix 1, .cand [1, 2], .cand [1, 2], .cand [1, 2]], 3, []⟩ 1 2 1 [1, 2]
      (setval ⟨2, [.fix 1, .cand [1, 2], .cand [1, 2], .cand [1, 2]], 3, []⟩ 1 2).2).2.2.2
      (by decide) (by decide) (by decide) (by decide)
    exact ⟨h.1, h.2.1⟩

/-- C6, counterexample.  The claim says the empty candidate set is never
stored and the cell's observable state is unchanged at the contradiction.
Excluding the single candidate of a one-candidate cell does fail with
`emptyDomain`, but NCell.xclude removes the value from the live set before
checking for emptiness, so the raising state holds the cell with an empty
candidate set: the state at the raise differs from the input state. -/
theorem claim_C6_counterexample :
    xcl ⟨1, [CVal.cand [1]], 1, []⟩ 0 1 =
      (some Err.emptyDomain, ⟨1, [CVal.cand []], 1, []⟩) ∧
    (⟨1, [CVal.cand []], 1, []⟩ : MS) ≠ ⟨1, [CVal.cand [1]], 1, []⟩ := by
  constructor
  · decide
  · decide

/-- C6, amended.  Excluding the only candidate v of a cell whose candidate
set is exactly the singleton of v always fails with `emptyDomain`, and the state at the
raise holds that cell with the empty candidate set stored (the removal
happens before the emptiness check; the dirty state is discarded only later
by the backtracking restore). -/
theorem claim_C6_amended :
    ∀ (ms : MS) (i v : Nat),
      cellAt ms i = .cand [v] →
      xcl ms i v = (some .emptyDomain,
        { ms with cells := ms.cells.set i (.cand []) }) := by
  intro ms i v h
  unfold xcl
  rw [h]
  simp

/-- Witness for C6: the amended theorem at a concrete one-cell grid. -/
theorem claim_C6_witness :
    xcl ⟨1, [CVal.cand [2]], 1, []⟩ 0 2 =
      (some Err.emptyDomain, ⟨1, [CVal.cand []], 1, []⟩) := by
  have h := claim_C6_amended ⟨1, [CVal.cand [2]], 1, []⟩ 0 2 (by decide)
  exact h.trans (by decide)

/-- C10: snapshot/restore round-trip.  For a Magicsquare and for an Eulero
alike, if a state `b` still carries on top of its stack the checkpoint
pushed by backup on a state `a` -- no matter how the cells, the counters
and (for an Eulero) the pair map of `b` were mutated since the snapshot, as
long as the cell-list lengths are kept -- then restore rebuilds `a`
exactly: the snapshot is a value-independent copy which later mutation of
the live state cannot alter, and in particular backup immediately followed
by restore is the identity. -/
theorem claim_C10_snapshot_roundtrip :
    (∀ (a b : MS), b.N = a.N → b.cells.length = a.cells.length →
      b.stack = (backup a).stack → msRestore b = a) ∧
    (∀ (a b : Eul), b.n = a.n → b.c0.length = a.c0.length →
      b.c1.length = a.c1.length → b.stack = (eulBackup a).stack →
      eulRestore b = a) := by
  constructor
  · intro a b hN hlen hst
    exact msRestore_exact a b hN hlen hst
  · intro a b hn h0 h1 hst
    exact eulRestore_exact a b hn h0 h1 hst

/-- Witness for C10: restoring concrete mutated states that still hold the
checkpoint of the fresh 2 x 2 Magicsquare / Eulero rebuilds them exactly. -/
theorem claim_C10_witness :
    msRestore { backup (initMS 2) with
        cells := (initCells 2).set 0 (CVal.fix 1), remain := 3 } = initMS 2 ∧
    eulRestore { eulBackup (initEul 2) with
        c0 := (initEul 2).c0.set 0 (CVal.fix 1), r0 := 3, remain := 7 } =
      initEul 2 := by
  constructor
  · exact claim_C10_snapshot_roundtrip.1 (initMS 2) _ rfl (by decide) rfl
  · exact claim_C10_snapshot_roundtrip.2 (initEul 2) _ rfl (by decide)
      (by decide) rfl

/-- C2: the claimed on-candidate-excluded hook never runs.  On the fresh
2 x 2 Eulero, excluding candidate 1 from the left cell (0,0) really removes
the candidate (no raise, the cell narrows to the single candidate 2), yet every
pair-location set is left untouched -- pair (1,1) still lists all four
cells -- whereas the repository's own (unreachable) Eulero.cellnotval,
run on the same event, would narrow the location sets of the pairs with
left component 1 on the spot.  NCell.xclude only notifies a `cellnotval`
attribute of its direct parent; the parent of every cell is a sub-
Magicsquare, which has no such attribute, and nothing forwards the event to
the Eulero, so exclusions never narrow pair-location sets. -/
theorem claim_C2_exclusion_hook_dead :
    (eulXcl (initEul 2) 0 0 1).1 = none ∧
    sqCellAt (eulXcl (initEul 2) 0 0 1).2 0 0 = CVal.cand [2] ∧
    (eulXcl (initEul 2) 0 0 1).2.pairs = (initEul 2).pairs ∧
    pairsGet (eulXcl (initEul 2) 0 0 1).2.pairs (1, 1) = PVal.locs [0, 1, 2, 3] ∧
    pairsGet (eulCellnotval (initEul 2) 0 0 1).2.pairs (1, 1) =
      PVal.locs [1, 2, 3] ∧
    pairsGet (eulCellnotval (initEul 2) 0 0 1).2.pairs (1, 2) =
      PVal.locs [1, 2, 3] ∧
    pairsGet (eulCellnotval (initEul 2) 0 0 1).2.pairs (2, 1) =
      PVal.locs [0, 1, 2, 3] := by
  refine ⟨?_, ?_, ?_, ?_, ?_, ?_, ?_⟩
  · decide
  · decide
  · decide
  · decide
  · decide
  · decide
  · decide

/-- C8, counterexample.  The claim says the conflicting givens (0,0)=5 and
(0,1)=5 of a standard 9 x 9 sudoku raise at given-application time.  In
sudoku.py, Sudoku.add_given only runs the Cell.val setter of the target
cell and does no propagation to the row, so both givens are accepted
without any error and the two same-row cells end up fixed to the same
value 5. -/
theorem claim_C8_counterexample :
    (addGiven (initSud 3 3) 0 0 5).1 = none ∧
    (addGiven (addGiven (initSud 3 3) 0 0 5).2 0 1 5).1 = none ∧
    cellAt0 (addGiven (addGiven (initSud 3 3) 0 0 5).2 0 1 5).2.cells 0 =
      CVal.fix 5 ∧
    cellAt0 (addGiven (addGiven (initSud 3 3) 0 0 5).2 0 1 5).2.cells 1 =
      CVal.fix 5 := by
  refine ⟨?_, ?_, ?_, ?_⟩
  · decide
  · decide
  · decide
  · decide

/-- C8, amended.  Sudoku.add_given fails exactly when the target cell
itself rejects the value (fixed to a different value, or the value is no
longer among the cell's candidates); it inspects no other cell, leaving
every other cell untouched -- so a given conflicting only with another
cell of its row, column or box is accepted silently. -/
theorem claim_C8_amended :
    ∀ (s : Sud) (r c v : Nat),
      ((addGiven s r c v).1 = none ↔
        (∀ w, cellAt0 s.cells (s.n * s.m * r + c) = .fix w → w = v) ∧
        (∀ l, cellAt0 s.cells (s.n * s.m * r + c) = .cand l → v ∈ l)) ∧
      (∀ k, ¬ (k = s.n * s.m * r + c) →
        cellAt0 (addGiven s r c v).2.cells k = cellAt0 s.cells k) := by
  intro s r c v
  constructor
  · simp only [addGiven]
    rcases hc : cellAt0 s.cells (s.n * s.m * r + c) with w | l
    · simp only [sudValSet]
      by_cases hw : w = v
      · rw [if_pos hw]
        simp only []
        constructor
        · intro _
          refine ⟨fun w2 h2 => ?_, fun l2 h2 => ?_⟩
          · exact CVal.fix.inj h2 ▸ hw
          · exact absurd h2 (by simp)
        · intro _
          trivial
      · rw [if_neg hw]
        simp only []
        constructor
        · intro h
          exact absurd h (by simp)
        · rintro ⟨h1, -⟩
          exact absurd (h1 w rfl) hw
    · simp only [sudValSet]
      by_cases hv : v ∈ l
      · rw [if_pos hv]
        simp only []
        constructor
        · intro _
          refine ⟨fun w2 h2 => ?_, fun l2 h2 => ?_⟩
          · exact absurd h2 (by simp)
          · exact CVal.cand.inj h2 ▸ hv
        · intro _
          trivial
      · rw [if_neg hv]
        simp only []
        constructor
        · intro h
          exact absurd h (by simp)
        · rintro ⟨-, h2⟩
          exact absurd (h2 l rfl) hv
  · intro k hk
    simp only [addGiven]
    rcases hc : sudValSet (cellAt0 s.cells (s.n * s.m * r + c)) v with ⟨er, cv⟩
    cases er with
    | none =>
      simp only []
      show cellAt0 (s.cells.set (s.n * s.m * r + c) cv) k = cellAt0 s.cells k
      rw [cellAt0_set]
      simp [hk]
    | some e =>
      rfl

/-- C7: the hidden-single rule on one house of a consistent Magicsquare
state (every state the solver ever applies rules to satisfies Inv), for
each value x.  If x is already fixed at some cell of the house, the house
is skipped; if no cell of the house can hold x at all, the rule raises
`noHouseLocation`; if exactly one unfixed cell can hold x, exactly that
cell is chosen for assignment; with two or more possible cells the house
is skipped. -/
theorem claim_C7_hidden_single :
    ∀ (ms : MS) (x : Nat) (hs : List Nat), Inv ms → hs ∈ allHouses ms.N →
      ((∃ j ∈ hs, cellAt0 ms.cells j = .fix x) →
        singlepos_house ms.cells x hs = .skip) ∧
      ((∀ j ∈ hs, (∀ w, cellAt0 ms.cells j = .fix w → ¬ (w = x)) ∧
          (∀ l, cellAt0 ms.cells j = .cand l → x ∉ l)) →
        singlepos_house ms.cells x hs = .raiseNoLoc) ∧
      (∀ j0, j0 ∈ hs → (∀ j ∈ hs, ∀ w, cellAt0 ms.cells j = .fix w → ¬ (w = x)) →
        (∃ l, cellAt0 ms.cells j0 = .cand l ∧ x ∈ l) →
        (∀ j ∈ hs, (∃ l, cellAt0 ms.cells j = .cand l ∧ x ∈ l) → j = j0) →
        singlepos_house ms.cells x hs = .assign j0) ∧
      (∀ j1 j2, j1 ∈ hs → j2 ∈ hs → ¬ (j1 = j2) →
        (∀ j ∈ hs, ∀ w, cellAt0 ms.cells j = .fix w → ¬ (w = x)) →
        (∃ l, cellAt0 ms.cells j1 = .cand l ∧ x ∈ l) →
        (∃ l, cellAt0 ms.cells j2 = .cand l ∧ x ∈ l) →
        singlepos_house ms.cells x hs = .skip) := by
  intro ms x hs hInv hHs
  have hN0 : 0 < ms.N := hInv.hN
  refine ⟨?_, ?_, ?_, ?_⟩
  · rintro ⟨j, hj, hfix⟩
    have hnc : ∀ k ∈ hs, ∀ l, cellAt0 ms.cells k = .cand l → x ∉ l := by
      intro k hk l hcl hxl
      have hjlt : j < ms.N * ms.N := allHouses_mem_lt hHs hj
      have hklt : k < ms.N * ms.N := allHouses_mem_lt hHs hk
      have hjk : j ≠ k := by
        intro he
        rw [← he, hfix] at hcl
        exact absurd hcl (by simp)
      have hsame : sameHouse ms.N j k :=
        (house_facts hN0 hHs).2.2 j hj k hk
      have hcomp := hInv.hcons j k hjlt hklt hjk hsame
      simp only [cellAt] at hcomp
      rw [hfix, hcl] at hcomp
      exact hcomp hxl
    unfold singlepos_house
    rw [scanH_fixed ms.cells x hs none false ⟨j, hj, hfix⟩ hnc]
  · intro h
    unfold singlepos_house
    rw [scanH_no_holder ms.cells x hs none false h]
  · intro j0 hj0 hnf hl0 hun
    unfold singlepos_house
    rw [scanH_unique_holder ms.cells x hs false
      ((house_facts hN0 hHs).2.1) hnf j0 hj0 hl0 hun]
  · intro j1 j2 h1 h2 hne hnf hl1 hl2
    unfold singlepos_house
    rw [scanH_two_holders ms.cells x hs false hnf j1 j2 h1 h2 hne hl1 hl2]

/-- Witness for C7: on the 2 x 2 grid with the top-left cell fixed to 1,
value 1 already appears in the first row, so that house is skipped. -/
theorem claim_C7_witness :
    singlepos_house (setval (initMS 2) 0 1).2.cells 1 (rowIdxs 2 0) =
      HAction.skip :=
  (claim_C7_hidden_single (setval (initMS 2) 0 1).2 1 (rowIdxs 2 0)
    (@setval_inv (initMS 2) 0 1 ((setval (initMS 2) 0 1).2)
      (initMS_inv (by decide)) (by decide) (by decide))
    (by decide)).1 ⟨0, by decide, by decide⟩

/-- Witness for C8: the second conflicting given leaves the first cell of
the 9 x 9 grid untouched. -/
theorem claim_C8_witness :
    cellAt0 (addGiven (addGiven (initSud 3 3) 0 0 5).2 0 1 5).2.cells 0 =
      cellAt0 (addGiven (initSud 3 3) 0 0 5).2.cells 0 :=
  (claim_C8_amended (addGiven (initSud 3 3) 0 0 5).2 0 1 5).2 0 (by decide)

/-- C9, counterexample.  The claim says findtry returns a non-fixed cell
with the fewest remaining candidates and breaks ties by taking the first
such cell in row-major order.  First, the two-candidate shortcut fires even
when a later cell has a single candidate, so the returned cell does not
have the fewest candidates.  Second, on the fresh 3 x 3 Eulero the left
and the right square tie (every unsolved cell has three candidates), and
Eulero.findtry returns the right square's first cell, not the first
minimal cell encountered (the left square, scanned first, loses the
tie). -/
theorem claim_C9_counterexample :
    findtryCells [CVal.cand [1, 2], CVal.cand [3]] = some 0 ∧
    cvLen (cellAt0 [CVal.cand [1, 2], CVal.cand [3]] 1) <
      cvLen (cellAt0 [CVal.cand [1, 2], CVal.cand [3]] 0) ∧
    eulFindtry (initEul 3) = some (1, 0) ∧
    sqCellAt (initEul 3) 0 0 = CVal.cand [1, 2, 3] ∧
    sqCellAt (initEul 3) 1 0 = CVal.cand [1, 2, 3] := by
  refine ⟨?_, ?_, ?_, ?_, ?_⟩
  · decide
  · decide
  · decide
  · decide
  · decide

/-- C9, amended.  On a grid whose unsolved cells all hold at least two
candidates (which the rules loop guarantees at every pivot selection,
since single-candidate cells are consumed by the single-candidate rule),
Magicsquare.findtry returns an unsolved cell with the fewest candidates
and ties are broken by the first such cell in scan order (the returned
cell's count is minimal, and strictly below every earlier unsolved
cell's).  Eulero.findtry returns a cell with the globally fewest
candidates over both squares, but an inter-square tie goes to the right
square: a left-square cell is returned only with a two-candidate shortcut
cell or with a count strictly below every unsolved right-square cell's. -/
theorem claim_C9_amended :
    (∀ (cells : List CVal) (i : Nat),
      (∀ d l, d < cells.length → cellAt0 cells d = .cand l → 2 ≤ l.length) →
      findtryCells cells = some i →
      (i < cells.length ∧ ∃ l, cellAt0 cells i = .cand l) ∧
      (∀ j, j < cells.length → (∃ l2, cellAt0 cells j = .cand l2) →
        cvLen (cellAt0 cells i) ≤ cvLen (cellAt0 cells j)) ∧
      (∀ j, j < i → (∃ l2, cellAt0 cells j = .cand l2) →
        cvLen (cellAt0 cells i) < cvLen (cellAt0 cells j))) ∧
    (∀ (e : Eul) (p i : Nat),
      (∀ d l, d < e.c0.length → cellAt0 e.c0 d = .cand l → 2 ≤ l.length) →
      (∀ d l, d < e.c1.length → cellAt0 e.c1 d = .cand l → 2 ≤ l.length) →
      (e.r0 = 0 → ∀ d l, d < e.c0.length → cellAt0 e.c0 d = .cand l → False) →
      eulFindtry e = some (p, i) →
      (i < (getSq e p).length ∧ ∃ l, cellAt0 (getSq e p) i = .cand l) ∧
      (∀ q j, q < 2 → j < (getSq e q).length →
        (∃ l2, cellAt0 (getSq e q) j = .cand l2) →
        cvLen (cellAt0 (getSq e p) i) ≤ cvLen (cellAt0 (getSq e q) j)) ∧
      (p = 0 → cvLen (cellAt0 e.c0 i) = 2 ∨
        ∀ j l2, j < e.c1.length → cellAt0 e.c1 j = .cand l2 →
          cvLen (cellAt0 e.c0 i) < cvLen (cellAt0 e.c1 j))) := by
  constructor
  · intro cells i hyp h
    rcases ftAux_min cells 0 none i hyp
      (by intro bi bl hb2; exact absurd hb2 (by simp)) h with ⟨bl, hbest, _⟩ |
      ⟨d, l, hi, hdlt, hcell, _, hle, hstrict⟩
    · exact absurd hbest (by simp)
    · have hid : i = d := by omega
      subst hid
      refine ⟨⟨hdlt, l, hcell⟩, ?_, ?_⟩
      · intro j hj hex
        rcases hex with ⟨l2, hc2⟩
        rw [hcell, hc2]
        simp only [cvLen]
        exact hle j l2 hj hc2
      · intro j hj hex
        rcases hex with ⟨l2, hc2⟩
        rw [hcell, hc2]
        simp only [cvLen]
        exact hstrict j l2 hj hc2
  · intro e p i h0c h1c hr0z h
    unfold eulFindtry at h
    rcases hL : (if e.r0 ≠ 0 then findtryCells e.c0 else none) with _ | i0
    · rw [hL] at h
      have hnc0 : ∀ d l, d < e.c0.length → cellAt0 e.c0 d = .cand l → False := by
        by_cases hr : e.r0 ≠ 0
        · rw [if_pos hr] at hL
          intro d l hd hc
          have hfix := (ftAux_none e.c0 0 none hL).2
          rw [cellAt0_eq_getElem e.c0 d hd] at hc
          have hm := hfix _ (List.getElem_mem hd)
          rw [hc] at hm
          exact absurd hm (by simp [isFixB])
        · exact hr0z (of_not_not hr)
      rcases hR : findtryCells e.c1 with _ | j1
      · rw [hR] at h
        exact absurd h (by simp)
      · rw [hR] at h
        simp only [Option.map] at h
        have h1 := Option.some.inj h
        have hp1 : p = 1 := (congrArg Prod.fst h1).symm
        have hii : i = j1 := (congrArg Prod.snd h1).symm
        subst hp1
        subst hii
        rcases ftAux_min e.c1 0 none i h1c
          (by intro bi bl hb2; exact absurd hb2 (by simp)) hR with
          ⟨bl, hbest, _⟩ | ⟨d1, l1, hi1, hd1lt, hcell1, _, hle1, hstrict1⟩
        · exact absurd hbest (by simp)
        · have hid1 : i = d1 := by omega
          subst hid1
          refine ⟨⟨hd1lt, l1, hcell1⟩, ?_, ?_⟩
          · intro q j hq hj hex
            rcases hex with ⟨l2, hc2⟩
            match q, hq, hj, hc2 with
            | 0, _, hj, hc2 => exact (hnc0 j l2 hj hc2).elim
            | 1, _, hj, hc2 =>
              have hc2b : cellAt0 e.c1 j = .cand l2 := hc2
              have hjb : j < e.c1.length := hj
              have hgoal : cvLen (cellAt0 e.c1 i) ≤ cvLen (cellAt0 e.c1 j) := by
                rw [hcell1, hc2b]
                simp only [cvLen]
                exact hle1 j l2 hjb hc2b
              exact hgoal
            | q + 2, hq, _, _ => exact absurd hq (by omega)
          · intro hp
            exact absurd hp (by decide)
    · rw [hL] at h
      have hL0 : findtryCells e.c0 = some i0 := by
        by_cases hr : e.r0 ≠ 0
        · rw [if_pos hr] at hL
          exact hL
        · rw [if_neg hr] at hL
          exact absurd hL (by simp)
      rcases ftAux_min e.c0 0 none i0 h0c
        (by intro bi bl hb2; exact absurd hb2 (by simp)) hL0 with
        ⟨bl, hbest, _⟩ | ⟨d0, l0, hi0, hd0lt, hcell0, _, hle0, hstrict0⟩
      · exact absurd hbest (by simp)
      · have hid0 : i0 = d0 := by omega
        subst hid0
        simp only [] at h
        by_cases hsc : cvLen (cellAt0 e.c0 i0) = 2
        · rw [if_pos hsc] at h
          have h1 := Option.some.inj h
          have hp0 : p = 0 := (congrArg Prod.fst h1).symm
          have hii : i = i0 := (congrArg Prod.snd h1).symm
          subst hp0
          subst hii
          refine ⟨⟨hd0lt, l0, hcell0⟩, ?_, ?_⟩
          · intro q j hq hj hex
            rcases hex with ⟨l2, hc2⟩
            match q, hq, hj, hc2 with
            | 0, _, hj, hc2 =>
              have hc2b : cellAt0 e.c0 j = .cand l2 := hc2
              have hjb : j < e.c0.length := hj
              have hgoal : cvLen (cellAt0 e.c0 i) ≤ cvLen (cellAt0 e.c0 j) := by
                rw [hcell0, hc2b]
                simp only [cvLen]
                exact hle0 j l2 hjb hc2b
              exact hgoal
            | 1, _, hj, hc2 =>
              have hc2b : cellAt0 e.c1 j = .cand l2 := hc2
              have hjb : j < e.c1.length := hj
              have hgoal : cvLen (cellAt0 e.c0 i) ≤ cvLen (cellAt0 e.c1 j) := by
                rw [hsc, hc2b]
                simp only [cvLen]
                exact h1c j l2 hjb hc2b
              exact hgoal
            | q + 2, hq, _, _ => exact absurd hq (by omega)
          · intro _
            exact Or.inl hsc
        · rw [if_neg hsc] at h
          rcases hR : findtryCells e.c1 with _ | j1
          · rw [hR] at h
            simp only [] at h
            have h1 := Option.some.inj h
            have hp0 : p = 0 := (congrArg Prod.fst h1).symm
            have hii : i = i0 := (congrArg Prod.snd h1).symm
            subst hp0
            subst hii
            have hnc1 : ∀ d l, d < e.c1.length → cellAt0 e.c1 d = .cand l →
                False := by
              intro d l hd hc
              have hfix := (ftAux_none e.c1 0 none hR).2
              rw [cellAt0_eq_getElem e.c1 d hd] at hc
              have hm := hfix _ (List.getElem_mem hd)
              rw [hc] at hm
              exact absurd hm (by simp [isFixB])
            refine ⟨⟨hd0lt, l0, hcell0⟩, ?_, ?_⟩
            · intro q j hq hj hex
              rcases hex with ⟨l2, hc2⟩
              match q, hq, hj, hc2 with
              | 0, _, hj, hc2 =>
                have hc2b : cellAt0 e.c0 j = .cand l2 := hc2
                have hjb : j < e.c0.length := hj
                have hgoal : cvLen (cellAt0 e.c0 i) ≤ cvLen (cellAt0 e.c0 j) := by
                  rw [hcell0, hc2b]
                  simp only [cvLen]
                  exact hle0 j l2 hjb hc2b
                exact hgoal
              | 1, _, hj, hc2 => exact (hnc1 j l2 hj hc2).elim
              | q + 2, hq, _, _ => exact absurd hq (by omega)
            · intro _
              right
              intro j l2 hj hc2
              exact (hnc1 j l2 hj hc2).elim
          · rw [hR] at h
            simp only [] at h
            rcases ftAux_min e.c1 0 none j1 h1c
              (by intro bi bl hb2; exact absurd hb2 (by simp)) hR with
              ⟨bl, hbest, _⟩ | ⟨d1, l1, hi1, hd1lt, hcell1, _, hle1, hstrict1⟩
            · exact absurd hbest (by simp)
            · have hid1 : j1 = d1 := by omega
              subst hid1
              by_cases hcmp : cvLen (cellAt0 e.c0 i0) < cvLen (cellAt0 e.c1 j1)
              · rw [if_pos hcmp] at h
                have h1 := Option.some.inj h
                have hp0 : p = 0 := (congrArg Prod.fst h1).symm
                have hii : i = i0 := (congrArg Prod.snd h1).symm
                subst hp0
                subst hii
                refine ⟨⟨hd0lt, l0, hcell0⟩, ?_, ?_⟩
                · intro q j hq hj hex
                  rcases hex with ⟨l2, hc2⟩
                  match q, hq, hj, hc2 with
                  | 0, _, hj, hc2 =>
                    have hc2b : cellAt0 e.c0 j = .cand l2 := hc2
                    have hjb : j < e.c0.length := hj
                    have hgoal : cvLen (cellAt0 e.c0 i) ≤
                        cvLen (cellAt0 e.c0 j) := by
                      rw [hcell0, hc2b]
                      simp only [cvLen]
                      exact hle0 j l2 hjb hc2b
                    exact hgoal
                  | 1, _, hj, hc2 =>
                    have hc2b : cellAt0 e.c1 j = .cand l2 := hc2
                    have hjb : j < e.c1.length := hj
                    have hj1 : cvLen (cellAt0 e.c1 j1) ≤
                        cvLen (cellAt0 e.c1 j) := by
                      rw [hcell1, hc2b]
                      simp only [cvLen]
                      exact hle1 j l2 hjb hc2b
                    have hgoal : cvLen (cellAt0 e.c0 i) ≤
                        cvLen (cellAt0 e.c1 j) := by omega
                    exact hgoal
                  | q + 2, hq, _, _ => exact absurd hq (by omega)
                · intro _
                  right
                  intro j l2 hj hc2
                  have hj1 : cvLen (cellAt0 e.c1 j1) ≤
                      cvLen (cellAt0 e.c1 j) := by
                    rw [hcell1, hc2]
                    simp only [cvLen]
                    exact hle1 j l2 hj hc2
                  omega
              · rw [if_neg hcmp] at h
                have h1 := Option.some.inj h
                have hp1 : p = 1 := (congrArg Prod.fst h1).symm
                have hii : i = j1 := (congrArg Prod.snd h1).symm
                subst hp1
                subst hii
                refine ⟨⟨hd1lt, l1, hcell1⟩, ?_, ?_⟩
                · intro q j hq hj hex
                  rcases hex with ⟨l2, hc2⟩
                  match q, hq, hj, hc2 with
                  | 0, _, hj, hc2 =>
                    have hc2b : cellAt0 e.c0 j = .cand l2 := hc2
                    have hjb : j < e.c0.length := hj
                    have hj0 : cvLen (cellAt0 e.c0 i0) ≤
                        cvLen (cellAt0 e.c0 j) := by
                      rw [hcell0, hc2b]
                      simp only [cvLen]
                      exact hle0 j l2 hjb hc2b
                    have hgoal : cvLen (cellAt0 e.c1 i) ≤
                        cvLen (cellAt0 e.c0 j) := by omega
                    exact hgoal
                  | 1, _, hj, hc2 =>
                    have hc2b : cellAt0 e.c1 j = .cand l2 := hc2
                    have hjb : j < e.c1.length := hj
                    have hgoal : cvLen (cellAt0 e.c1 i) ≤
                        cvLen (cellAt0 e.c1 j) := by
                      rw [hcell1, hc2b]
                      simp only [cvLen]
                      exact hle1 j l2 hjb hc2b
                    exact hgoal
                  | q + 2, hq, _, _ => exact absurd hq (by omega)
                · intro hp
                  exact absurd hp (by decide)

/-- Witness for C9: the amended theorem applied to the fresh 3 x 3 Eulero,
whose pivot is the right square's first cell. -/
theorem claim_C9_witness :
    0 < (getSq (initEul 3) 1).length ∧
      ∃ l, cellAt0 (getSq (initEul 3) 1) 0 = CVal.cand l :=
  (claim_C9_amended.2 (initEul 3) 1 0
    (by
      intro d l hd hc
      have hd9 : d < 9 := by simpa [initEul, initCells] using hd
      rw [(by decide : (initEul 3).c0 = List.replicate 9 (CVal.cand [1, 2, 3]))] at hc
      rw [cellAt0_replicate hd9] at hc
      have he := (CVal.cand.inj hc).symm
      subst he
      decide)
    (by
      intro d l hd hc
      have hd9 : d < 9 := by simpa [initEul, initCells] using hd
      rw [(by decide : (initEul 3).c1 = List.replicate 9 (CVal.cand [1, 2, 3]))] at hc
      rw [cellAt0_replicate hd9] at hc
      have he := (CVal.cand.inj hc).symm
      subst he
      decide)
    (by
      intro h
      exact absurd h (by decide))
    (by decide)).1

end Sudocubus
